import Mathlib

/-!
# unity_project_full_clean.go : the directory purger and the file purger

A shallow embedding of `src/GASSample/unity_project_full_clean.go`.

* A path is the list of its components; `filepathJoin` appends one component.
* The filesystem is a finite list of nodes.  A node carries what the program
  can observe of it: whether it is a directory, whether the system refuses to
  remove it (`locked`), to list it (`unreadable`) or to pass through it
  (`unsearchable`).
* `osRemoveAll`, `osRemove`, `osReadDir`, `filepathExt` follow the Go standard
  library functions the program calls, on a Unix system.
* A worker pool is a small transition system: a worker receives the oldest
  queued job or carries out the job it holds, and the scheduler `sched`
  chooses which worker moves.  Carrying out one job is one step.
-/

namespace UnityClean

/-! ## Configuration (lines 13-37) -/

/-- Folders to delete, `directoriesToDelete`. -/
def directoriesToDelete : List String :=
  [".vs", ".idea", ".vscode", ".utmp", "obj", "Logs", "Temp", "Library",
   "SceneBackups", "MemoryCaptures", "Build", "HybridCLRData", "Bundles", "yoo",
   "HotUpdateAssetsPreUpload"]

/-- File extensions to delete, `fileExtensionsToDelete`. -/
def fileExtensionsToDelete : List String :=
  [".csproj", ".sln", ".txt", ".user", ".vsconfig"]

/-! ## Paths -/

/-- A cleaned path, as the list of its components from the root. -/
abbrev Path := List String

/-- Go `filepath.Join(basePath, name)` for a single-component `name`
(every listed directory name and every directory-entry name is one). -/
def filepathJoin (basePath : Path) (name : String) : Path :=
  basePath ++ [name]

/-- Go `os.IsPathSeparator`, on a Unix system.  (On Windows the backslash is
a separator too; no directory entry there has a slash or a backslash in its
name, and on such names both variants of `filepath.Ext` stop at the same
place.) -/
def isPathSeparator (c : Char) : Bool :=
  c == '/'

/-- The loop of Go `filepath.Ext`: `rev` holds `path[0..i]` reversed (its head
is `path[i]`), `acc` is `path[i+1..]`.  The loop stops at a path separator with
the empty result, and at a dot with `path[i..]`. -/
def extScan : List Char → List Char → List Char
  | [], _ => []
  | c :: rev, acc =>
    if isPathSeparator c then []
    else if c = '.' then c :: acc
    else extScan rev (c :: acc)

/-- Go `filepath.Ext(path)`: the suffix beginning at the final dot in the
final element of `path`; empty if there is no dot.  (Go scans bytes; the dot
and the separator are ASCII, so scanning the characters of a UTF-8 string
stops at the same place.) -/
def filepathExt (path : String) : String :=
  String.mk (extScan path.data.reverse [])

/-! ## The filesystem -/

/-- Errors of the system calls. -/
inductive Err where
  | notExist
  | notDir
  | notEmpty
  | permission
  deriving DecidableEq, Repr

/-- One file or directory, with what the system lets the program do to it.
`locked`: the system refuses to remove it (a file in use, a parent without
write permission).  `unreadable`: a directory that cannot be opened for
listing.  `unsearchable`: a directory whose entries cannot be reached through
it (no search permission). -/
structure Node where
  path : Path
  isDir : Bool
  locked : Bool
  unreadable : Bool
  unsearchable : Bool
  deriving DecidableEq, Repr

/-- A filesystem state. -/
abbrev FS := List Node

/-- The node stored at `p`, if any. -/
def FS.lookup (fs : FS) (p : Path) : Option Node :=
  fs.find? (fun n => n.path == p)

/-- Does `p` exist? -/
def FS.pathExists (fs : FS) (p : Path) : Bool :=
  fs.any (fun n => n.path == p)

/-- Does `p` have an entry below it? -/
def FS.hasChildren (fs : FS) (p : Path) : Bool :=
  fs.any (fun n => p.isPrefixOf n.path && n.path != p)

/-- Every path is stored once, and with a node all its ancestors exist. -/
def FS.WF (fs : FS) : Prop :=
  (fs.map Node.path).Nodup ∧
  ∀ n ∈ fs, ∀ p ∈ n.path.inits, fs.pathExists p = true

instance FS.decidableWF (fs : FS) : Decidable fs.WF := by
  unfold FS.WF; infer_instance

/-- What stops a walk that has to pass through the component `a`: `a` exists
and is not a directory (ENOTDIR), or cannot be searched (EACCES). -/
def FS.componentErr (fs : FS) (a : Path) : Option Err :=
  match fs.lookup a with
  | none => none
  | some n =>
    if !n.isDir then some Err.notDir
    else if n.unsearchable then some Err.permission
    else none

/-- The error the system meets on the way to `path`, at the first of its
proper ancestors, from the root on, that stops the walk.  (An ancestor that
does not exist stops the walk too, with ENOENT; then `path` does not exist
either, and each call below treats that as the absence of `path`.) -/
def FS.walkErr (fs : FS) (path : Path) : Option Err :=
  path.inits.dropLast.findSome? fs.componentErr

/-- Go `os.Remove(name)`, as documented: it removes the named file or (empty)
directory.  It fails when the name cannot be reached, when there is no such
node, when the node is locked, or when it is a directory that is not empty. -/
def osRemove (name : Path) (fs : FS) : Option Err × FS :=
  match fs.walkErr name with
  | some err => (some err, fs)
  | none =>
    match fs.lookup name with
    | none => (some Err.notExist, fs)
    | some n =>
      if n.locked then (some Err.permission, fs)
      else if n.isDir && fs.hasChildren name then (some Err.notEmpty, fs)
      else (none, fs.filter (fun m => m.path != name))

/-- Is the directory that holds `path` one that cannot be opened for listing? -/
def FS.parentUnreadable (fs : FS) (path : Path) : Bool :=
  path != [] &&
    match fs.lookup path.dropLast with
    | some d => d.unreadable
    | none => false

/-- Does the first step of `os.RemoveAll`, the call `Remove(path)`, fail on a
node that exists? -/
def FS.firstRemoveFails (fs : FS) (path : Path) : Bool :=
  match fs.lookup path with
  | none => false
  | some n => n.locked || (n.isDir && fs.hasChildren path)

/-- The error that ends `os.RemoveAll(path)` before it removes anything: the
path cannot be reached; or `Remove(path)` has failed and the parent directory,
from which the recursion starts, cannot be opened. -/
def FS.refusal (fs : FS) (path : Path) : Option Err :=
  match fs.walkErr path with
  | some err => some err
  | none =>
    if fs.firstRemoveFails path && fs.parentUnreadable path then some Err.permission
    else none

/-- In the recursion of `os.RemoveAll` from `root`, the node `m` cannot be
removed: it is locked, or a directory on the way from `root` down to it cannot
be listed or cannot be searched. -/
def FS.unremovable (fs : FS) (root : Path) (m : Node) : Bool :=
  m.locked ||
    fs.any (fun a => root.isPrefixOf a.path && a.path.isPrefixOf m.path && a.path != m.path
      && (a.unreadable || a.unsearchable))

/-- In the recursion of `os.RemoveAll` from `root`, something at `q` or below
it cannot be removed; then `q` stays as well. -/
def FS.stuck (fs : FS) (root q : Path) : Bool :=
  fs.any (fun m => q.isPrefixOf m.path && fs.unremovable root m)

/-- Go `os.RemoveAll(path)`: it removes `path` and any children it contains;
it removes everything it can and returns the first error it meets; if the path
does not exist it returns nil.  Beyond the documentation this follows the
Unix implementation: a path that cannot be reached is an error (ENOTDIR,
EACCES) also when nothing is there, and when `Remove(path)` fails the parent
directory is opened first. -/
def osRemoveAll (path : Path) (fs : FS) : Option Err × FS :=
  match fs.refusal path with
  | some err => (some err, fs)
  | none =>
    (if fs.stuck path path then some Err.permission else none,
     fs.filter (fun n => !(path.isPrefixOf n.path) || fs.stuck path n.path))

/-- Go `fs.DirEntry`, as far as the program reads it. -/
structure DirEntry where
  name : String
  isDir : Bool
  deriving DecidableEq, Repr

/-- The entry that node `n` contributes to the listing of `dir`: `n` is an
immediate child of `dir`. -/
def entryOf (dir : Path) (n : Node) : Option DirEntry :=
  if n.path.dropLast = dir then
    match n.path.getLast? with
    | some name => some { name := name, isDir := n.isDir }
    | none => none
  else none

/-- Go `os.ReadDir(name)`: the entries of the named directory, or an error
when the name cannot be reached, does not exist, is not a directory or cannot
be opened for listing.
(Go sorts the entries by name; here they come in the order of the nodes.  No
statement below depends on the order of the candidates, since the scheduler
may carry them out in any order anyway.) -/
def osReadDir (name : Path) (fs : FS) : Except Err (List DirEntry) :=
  match fs.walkErr name with
  | some err => Except.error err
  | none =>
    match fs.lookup name with
    | none => Except.error Err.notExist
    | some d =>
      if !d.isDir then Except.error Err.notDir
      else if d.unreadable then Except.error Err.permission
      else Except.ok (fs.filterMap (entryOf name))

/-! ## Output -/

/-- The lines the program prints. -/
inductive Line where
  | deletedDirectory (path : Path)
  | unableToDeleteDirectory (path : Path) (err : Err)
  | deletedFile (path : Path)
  | unableToDeleteFile (path : Path) (err : Err)
  | unableToGetCurrentDirectory (err : Err)
  | errorDeletingDirectories (err : Err)
  | errorDeletingFiles (err : Err)
  | operationCompleted
  | pressEnterToContinue
  deriving DecidableEq, Repr

/-- One removal call: the path it was given and the error it returned. -/
abbrev Attempt := Path × Option Err

/-- The line printed by a directory worker (lines 56-60). -/
def directoryLine (a : Attempt) : Line :=
  match a.2 with
  | some err => Line.unableToDeleteDirectory a.1 err
  | none => Line.deletedDirectory a.1

/-- The line printed by a file worker (lines 118-122). -/
def fileLine (a : Attempt) : Line :=
  match a.2 with
  | some err => Line.unableToDeleteFile a.1 err
  | none => Line.deletedFile a.1

/-- Does the line report a removal that failed? -/
def Line.isFailure : Line → Bool
  | Line.unableToDeleteDirectory _ _ => true
  | Line.unableToDeleteFile _ _ => true
  | _ => false

/-! ## The worker pool -/

/-- Carrying out jobs one after the other in the given order: the loop body
`for job := range jobs` of a worker.  A failed job is recorded and the loop
goes on to the next one. -/
def runJobs {α : Type} (body : α → FS → Attempt × FS) : List α → FS → List Attempt × FS
  | [], fs => ([], fs)
  | job :: rest, fs =>
    let r := body job fs
    let rs := runJobs body rest r.2
    (r.1 :: rs.1, rs.2)

/-- A worker pool at one moment: the jobs still in the channel (oldest first),
the jobs that workers have received and not yet carried out, the filesystem,
and the removal calls made so far. -/
structure Pool (α : Type) where
  queue : List α
  held : List α
  fs : FS
  attempts : List Attempt

/-- An idle worker receives the oldest job of the channel.  There is an idle
worker when fewer than `workerCount` jobs are held. -/
def Pool.receive {α : Type} (workerCount : Nat) (s : Pool α) : Option (Pool α) :=
  match s.queue with
  | job :: rest =>
    if s.held.length < workerCount then
      some { queue := rest, held := s.held ++ [job], fs := s.fs, attempts := s.attempts }
    else none
  | [] => none

/-- The worker that holds the `i`-th held job carries it out and is idle again. -/
def Pool.carryOut {α : Type} (body : α → FS → Attempt × FS) (i : Nat) (s : Pool α) :
    Option (Pool α) :=
  match s.held[i]? with
  | some job =>
    let r := body job s.fs
    some { queue := s.queue, held := s.held.eraseIdx i, fs := r.2,
           attempts := s.attempts ++ [r.1] }
  | none => none

/-- One step of the pool.  The `choice` of the scheduler selects the worker that
moves: `0` asks for a receive, `i + 1` asks the holder of held job
`i % held.length` to carry it out; when the move asked for is not possible the
other kind of move is made, and when no worker can move nothing happens. -/
def Pool.step {α : Type} (workerCount : Nat) (body : α → FS → Attempt × FS) (choice : Nat)
    (s : Pool α) : Pool α :=
  match choice with
  | 0 => (s.receive workerCount).getD ((s.carryOut body 0).getD s)
  | i + 1 =>
    (s.carryOut body (i % s.held.length)).getD ((s.receive workerCount).getD s)

/-- The pool run for `fuel` steps under the scheduler `sched`. -/
def Pool.run {α : Type} (workerCount : Nat) (body : α → FS → Attempt × FS) (sched : Nat → Nat) :
    Nat → Pool α → Pool α
  | 0, s => s
  | fuel + 1, s => Pool.run workerCount body sched fuel (s.step workerCount body (sched fuel))

/-- The pool of a purger: `workerCount` workers are started, `jobs` are sent
to the channel, the channel is closed, and `wg.Wait()` returns when the
workers have drained it.  The channel has room for all the jobs, so sending
never blocks, and a worker can only receive the oldest job not yet received;
hence the run starts with all jobs queued.  Every step moves a worker unless
none can move, and a job costs two moves, so `2 * jobs.length` steps reach
the end.  The result is the removal calls made and the filesystem left. -/
def workerPool {α : Type} (sched : Nat → Nat) (workerCount : Nat) (jobs : List α)
    (body : α → FS → Attempt × FS) (fs : FS) : List Attempt × FS :=
  let s := Pool.run workerCount body sched (2 * jobs.length)
    { queue := jobs, held := [], fs := fs, attempts := [] }
  (s.attempts, s.fs)

/-- What one call of a purger did: the state it left, the error it returned,
the number of workers it started, the jobs it sent to the queue (each named by
the path it removes), the removal calls made, and the lines printed. -/
structure Run where
  fs : FS
  err : Option Err
  workers : Nat
  enqueued : List Path
  attempts : List Attempt
  output : List Line
  deriving DecidableEq, Repr

/-! ## deleteDirectories (lines 40-72) -/

/-- The job of a directory worker (lines 54-60). -/
def directoryJob (basePath : Path) (dir : String) (fs : FS) : Attempt × FS :=
  let path := filepathJoin basePath dir
  let r := osRemoveAll path fs
  ((path, r.1), r.2)

/-- The number of workers `deleteDirectories` starts (lines 41-44). -/
def directoryWorkerCount (numCPU : Nat) : Nat :=
  if numCPU < 2 then 2 else numCPU

/-- Go `deleteDirectories(basePath)`. -/
def deleteDirectories (sched : Nat → Nat) (numCPU : Nat)
    (basePath : Path) (fs : FS) : Run :=
  let workerCount := directoryWorkerCount numCPU
  let r := workerPool sched workerCount directoriesToDelete (directoryJob basePath) fs
  { fs := r.2
    err := none
    workers := workerCount
    enqueued := directoriesToDelete.map (filepathJoin basePath)
    attempts := r.1
    output := r.1.map directoryLine }

/-! ## deleteFiles (lines 75-133) -/

/-- The candidate loop (lines 87-96). -/
def collectCandidates (basePath : Path) : List DirEntry → List Path
  | [] => []
  | entry :: rest =>
    if entry.isDir then collectCandidates basePath rest
    else if fileExtensionsToDelete.contains (filepathExt entry.name) then
      filepathJoin basePath entry.name :: collectCandidates basePath rest
    else collectCandidates basePath rest

/-- The number of workers `deleteFiles` starts (lines 102-108). -/
def fileWorkerCount (numCPU candidateCount : Nat) : Nat :=
  let workerCount := if numCPU < 2 then 2 else numCPU
  if workerCount > candidateCount then candidateCount else workerCount

/-- The job of a file worker (lines 118-122). -/
def fileJob (path : Path) (fs : FS) : Attempt × FS :=
  let r := osRemove path fs
  ((path, r.1), r.2)

/-- Go `deleteFiles(basePath)`. -/
def deleteFiles (sched : Nat → Nat) (numCPU : Nat)
    (basePath : Path) (fs : FS) : Run :=
  match osReadDir basePath fs with
  | Except.error err =>
    { fs := fs, err := some err, workers := 0, enqueued := [], attempts := [], output := [] }
  | Except.ok entries =>
    let candidates := collectCandidates basePath entries
    if candidates.length = 0 then
      { fs := fs, err := none, workers := 0, enqueued := [], attempts := [], output := [] }
    else
      let workerCount := fileWorkerCount numCPU candidates.length
      let r := workerPool sched workerCount candidates fileJob fs
      { fs := r.2
        err := none
        workers := workerCount
        enqueued := candidates
        attempts := r.1
        output := r.1.map fileLine }

/-! ## main (lines 135-153) -/

/-- Go `main`: the directory phase, then the file phase, on the working
directory `getwd`.  The result is the final filesystem and the printed lines. -/
def main (schedD schedF : Nat → Nat)
    (numCPU : Nat) (getwd : Except Err Path) (fs : FS) : FS × List Line :=
  match getwd with
  | Except.error err =>
    (fs, [Line.unableToGetCurrentDirectory err, Line.pressEnterToContinue])
  | Except.ok basePath =>
    let d := deleteDirectories schedD numCPU basePath fs
    let outD := match d.err with
      | some err => d.output ++ [Line.errorDeletingDirectories err]
      | none => d.output
    let f := deleteFiles schedF numCPU basePath d.fs
    let outF := match f.err with
      | some err => f.output ++ [Line.errorDeletingFiles err]
      | none => f.output
    (f.fs, outD ++ outF ++
      [Line.operationCompleted, Line.pressEnterToContinue])

/-! ## Notions used by the statements -/

/-- Does the node `n` survive `os.RemoveAll(path)`?  It does when the call is
refused, when it is not at or below `path`, and when something at or below it
cannot be removed. -/
def FS.survives (fs : FS) (path : Path) (n : Node) : Bool :=
  (fs.refusal path).isSome || !(path.isPrefixOf n.path) || fs.stuck path n.path

/-- Is `n` a file that `deleteFiles basePath` collects: an immediate entry of
`basePath` that is not a directory and whose extension is listed? -/
def isTarget (basePath : Path) (n : Node) : Bool :=
  match entryOf basePath n with
  | some e => !e.isDir && fileExtensionsToDelete.contains (filepathExt e.name)
  | none => false

/-- The outcome of both phases on the top level of `basePath`: an entry of the
state `fs` is still in `fs'` exactly when its name is not a listed directory
name and it is a directory or a file whose extension is not listed. -/
def TopLevelOutcome (basePath : Path) (fs fs' : FS) : Prop :=
  ∀ n ∈ fs, ∀ name, n.path = filepathJoin basePath name →
    (n ∈ fs' ↔ name ∉ directoriesToDelete ∧
      (n.isDir = true ∨ filepathExt name ∉ fileExtensionsToDelete))

/-! ## Notions for the run of a pool -/

/-- What holds of a pool throughout its run: the jobs carried out so far, the
held ones and the queued ones together are the batch, and the attempts and the
filesystem are those of carrying out the finished jobs one after the other. -/
def Pool.Inv {α : Type} (body : α → FS → Attempt × FS) (jobs : List α) (fs : FS)
    (s : Pool α) : Prop :=
  ∃ done, (done ++ (s.held ++ s.queue)).Perm jobs ∧ runJobs body done fs = (s.attempts, s.fs)

/-- The work left: two moves for a queued job, one for a held job. -/
def Pool.work {α : Type} (s : Pool α) : Nat :=
  2 * s.queue.length + s.held.length

/-! ## The extension of a name, as the specification words it -/

/-- The suffix of `name` that starts at its last dot, empty when `name` has no
dot: a dot with a later dot behind it is skipped. -/
def lastDotSuffixChars : List Char → List Char
  | [] => []
  | c :: cs =>
    if '.' ∈ cs then lastDotSuffixChars cs
    else if c = '.' then c :: cs
    else []

/-- The suffix of `name` starting at its last dot (empty when it has none). -/
def lastDotSuffix (name : String) : String :=
  String.mk (lastDotSuffixChars name.data)

/-! ## Example states -/

/-- The project directory of the examples. -/
def projectDir : Path := ["proj"]

/-- An unlocked, readable node. -/
def plainNode (path : Path) (isDir : Bool) : Node :=
  { path := path, isDir := isDir, locked := false, unreadable := false,
    unsearchable := false }

/-- The example of the specification: `obj/`, `Library/`, `notes.txt`,
`project.sln`, `keep.json` in the project directory. -/
def specExampleFS : FS :=
  [plainNode [] true, plainNode ["proj"] true,
   plainNode ["proj", "obj"] true, plainNode ["proj", "obj", "a.o"] false,
   plainNode ["proj", "Library"] true,
   plainNode ["proj", "notes.txt"] false,
   plainNode ["proj", "project.sln"] false,
   plainNode ["proj", "keep.json"] false]

/-- The example of the specification with a directory whose name ends in
`.txt` and a `.txt` file in a subdirectory. -/
def mixedFS : FS :=
  specExampleFS ++
    [plainNode ["proj", "docs.txt"] true, plainNode ["proj", "Assets"] true,
     plainNode ["proj", "Assets", "readme.txt"] false]

/-- A project with a locked file inside `Library/`, a locked `notes.txt`, a
directory whose name ends in `.txt`, and a `.txt` file in a subdirectory. -/
def lockedFS : FS :=
  [plainNode [] true, plainNode ["proj"] true,
   plainNode ["proj", "obj"] true, plainNode ["proj", "obj", "a.o"] false,
   plainNode ["proj", "Library"] true,
   { path := ["proj", "Library", "cache.db"], isDir := false, locked := true,
     unreadable := false, unsearchable := false },
   plainNode ["proj", "Library", "stamp"] false,
   { path := ["proj", "notes.txt"], isDir := false, locked := true, unreadable := false,
     unsearchable := false },
   plainNode ["proj", "project.sln"] false,
   plainNode ["proj", "docs.txt"] true,
   plainNode ["proj", "Assets"] true, plainNode ["proj", "Assets", "readme.txt"] false]

/-- A project directory that cannot be listed, holding `notes.txt`. -/
def unlistableFS : FS :=
  [plainNode [] true,
   { path := ["proj"], isDir := true, locked := false, unreadable := true,
     unsearchable := false },
   plainNode ["proj", "notes.txt"] false]

/-- A project directory holding the single candidate `notes.txt`. -/
def singleFS : FS :=
  [plainNode [] true, plainNode ["proj"] true, plainNode ["proj", "notes.txt"] false]

/-- An empty project directory. -/
def emptyFS : FS :=
  [plainNode [] true, plainNode ["proj"] true]

/-- A project in which each of the 15 listed directories exists and is locked. -/
def allLockedFS : FS :=
  [plainNode [] true, plainNode ["proj"] true] ++
    directoriesToDelete.map (fun d =>
      { path := ["proj", d], isDir := true, locked := true, unreadable := false,
        unsearchable := false })

/-- A project path that is a regular file. -/
def fileBaseFS : FS :=
  [plainNode [] true, plainNode ["proj"] false]

/-- A project directory that cannot be searched, holding `keep.json`. -/
def unsearchableFS : FS :=
  [plainNode [] true,
   { path := ["proj"], isDir := true, locked := false, unreadable := false,
     unsearchable := true },
   plainNode ["proj", "keep.json"] false]

/-- A project in which `obj/` is not empty and cannot be listed. -/
def unreadableObjFS : FS :=
  [plainNode [] true, plainNode ["proj"] true,
   { path := ["proj", "obj"], isDir := true, locked := false, unreadable := true,
     unsearchable := false },
   plainNode ["proj", "obj", "a.o"] false,
   plainNode ["proj", "Temp"] true, plainNode ["proj", "Temp", "x"] false]

/-- A project directory that cannot be listed, with a locked file inside
`Library/` and an empty `Temp/`. -/
def unlistableBusyFS : FS :=
  [plainNode [] true,
   { path := ["proj"], isDir := true, locked := false, unreadable := true,
     unsearchable := false },
   plainNode ["proj", "Library"] true,
   { path := ["proj", "Library", "cache.db"], isDir := false, locked := true,
     unreadable := false, unsearchable := false },
   plainNode ["proj", "Temp"] true]


/-! ## The worker pool carries out a rearrangement of its queue -/

theorem runJobs_concat {α : Type} (body : α → FS → Attempt × FS) (done : List α) (job : α)
    (fs : FS) :
    runJobs body (done ++ [job]) fs =
      ((runJobs body done fs).1 ++ [(body job (runJobs body done fs).2).1],
       (body job (runJobs body done fs).2).2) := by
  induction done generalizing fs with
  | nil => simp [runJobs]
  | cons d rest ih => simp [runJobs, ih]

theorem perm_cons_eraseIdx {α : Type} (l : List α) (i : Nat) (job : α)
    (h : l[i]? = some job) : l.Perm (job :: l.eraseIdx i) := by
  induction l generalizing i with
  | nil => simp at h
  | cons x l ih =>
    cases i with
    | zero =>
      simp at h
      subst h
      simp
    | succ i =>
      simp at h
      simp only [List.eraseIdx_cons_succ]
      exact ((ih i h).cons x).trans (List.Perm.swap job x _)

theorem Pool.receive_inv {α : Type} (body : α → FS → Attempt × FS) (jobs : List α) (fs : FS)
    (w : Nat) (s s1 : Pool α) (h : s.receive w = some s1) (hinv : s.Inv body jobs fs) :
    s1.Inv body jobs fs ∧ s1.work + 1 = s.work := by
  unfold Pool.receive at h
  split at h
  · rename_i job rest hq
    split at h
    · cases h
      obtain ⟨done, hperm, hrun⟩ := hinv
      refine ⟨⟨done, ?_, hrun⟩, ?_⟩
      · simpa [hq] using hperm
      · simp [Pool.work, hq]; omega
    · cases h
  · cases h

theorem Pool.carryOut_inv {α : Type} (body : α → FS → Attempt × FS) (jobs : List α) (fs : FS)
    (i : Nat) (s s1 : Pool α) (h : s.carryOut body i = some s1) (hinv : s.Inv body jobs fs) :
    s1.Inv body jobs fs ∧ s1.work + 1 = s.work := by
  unfold Pool.carryOut at h
  split at h
  · rename_i job hget
    cases h
    obtain ⟨done, hperm, hrun⟩ := hinv
    have hp := perm_cons_eraseIdx s.held i job hget
    refine ⟨⟨done ++ [job], ?_, ?_⟩, ?_⟩
    · refine List.Perm.trans ?_ hperm
      simp only [List.append_assoc, List.singleton_append]
      exact List.Perm.append_left done ((hp.append_right s.queue).symm)
    · rw [runJobs_concat, hrun]
    · have hlen := hp.length_eq
      simp only [List.length_cons] at hlen
      simp only [Pool.work]
      omega
  · cases h

theorem Pool.receive_some {α : Type} (w : Nat) (s : Pool α) (hw : w ≠ 0)
    (hq : s.queue ≠ []) (hh : s.held = []) : ∃ s1, s.receive w = some s1 := by
  unfold Pool.receive
  cases hs : s.queue with
  | nil => exact absurd hs hq
  | cons job rest =>
    have : s.held.length < w := by rw [hh]; simpa using Nat.pos_of_ne_zero hw
    simp [this]

theorem Pool.carryOut_some {α : Type} (body : α → FS → Attempt × FS) (i : Nat) (s : Pool α)
    (hi : i < s.held.length) : ∃ s1, s.carryOut body i = some s1 := by
  unfold Pool.carryOut
  rw [List.getElem?_eq_getElem hi]
  exact ⟨_, rfl⟩

/-- A step keeps the invariant, and does one unit of the work left when there
is work left and the pool has a worker. -/
theorem Pool.step_inv {α : Type} (body : α → FS → Attempt × FS) (jobs : List α) (fs : FS)
    (w : Nat) (hw : w ≠ 0) (choice : Nat) (s : Pool α) (hinv : s.Inv body jobs fs) :
    (s.step w body choice).Inv body jobs fs ∧
      (s.step w body choice).work = s.work - 1 := by
  have key : ∀ s1, (s.receive w = some s1 ∨ (∃ i, s.carryOut body i = some s1)) →
      s1.Inv body jobs fs ∧ s1.work = s.work - 1 := by
    intro s1 h
    rcases h with h | ⟨i, h⟩
    · have := Pool.receive_inv body jobs fs w s s1 h hinv
      exact ⟨this.1, by omega⟩
    · have := Pool.carryOut_inv body jobs fs i s s1 h hinv
      exact ⟨this.1, by omega⟩
  have idle : s.receive w = none → s.carryOut body 0 = none → s.work = 0 := by
    intro hr hc
    have hh : s.held = [] := by
      by_contra hne
      obtain ⟨s1, h1⟩ := Pool.carryOut_some body 0 s (List.length_pos.mpr hne)
      rw [hc] at h1; cases h1
    have hq : s.queue = [] := by
      by_contra hne
      obtain ⟨s1, h1⟩ := Pool.receive_some w s hw hne hh
      rw [hr] at h1; cases h1
    simp [Pool.work, hh, hq]
  unfold Pool.step
  cases choice with
  | zero =>
    simp only
    cases hr : s.receive w with
    | some s1 => exact key s1 (Or.inl hr)
    | none =>
      cases hc : s.carryOut body 0 with
      | some s1 => exact key s1 (Or.inr ⟨0, hc⟩)
      | none =>
        simp only [Option.getD_none]
        exact ⟨hinv, by rw [idle hr hc]⟩
  | succ i =>
    simp only
    cases hc : s.carryOut body (i % s.held.length) with
    | some s1 => exact key s1 (Or.inr ⟨_, hc⟩)
    | none =>
      cases hr : s.receive w with
      | some s1 => exact key s1 (Or.inl hr)
      | none =>
        simp only [Option.getD_none]
        refine ⟨hinv, ?_⟩
        have hh : s.held = [] := by
          by_contra hne
          obtain ⟨s1, h1⟩ := Pool.carryOut_some body (i % s.held.length) s
            (Nat.mod_lt _ (List.length_pos.mpr hne))
          rw [hc] at h1; cases h1
        have hq : s.queue = [] := by
          by_contra hne
          obtain ⟨s1, h1⟩ := Pool.receive_some w s hw hne hh
          rw [hr] at h1; cases h1
        simp [Pool.work, hh, hq]

theorem Pool.run_inv {α : Type} (body : α → FS → Attempt × FS) (jobs : List α) (fs : FS)
    (w : Nat) (hw : w ≠ 0) (sched : Nat → Nat) (fuel : Nat) (s : Pool α)
    (hinv : s.Inv body jobs fs) :
    (Pool.run w body sched fuel s).Inv body jobs fs ∧
      (Pool.run w body sched fuel s).work = s.work - fuel := by
  induction fuel generalizing s with
  | zero => exact ⟨hinv, rfl⟩
  | succ fuel ih =>
    have hstep := Pool.step_inv body jobs fs w hw (sched fuel) s hinv
    have := ih _ hstep.1
    unfold Pool.run
    exact ⟨this.1, by rw [this.2, hstep.2]; omega⟩

/-- A pool with at least one worker drains its queue: what it returns is the
result of carrying out the jobs one after the other in some rearrangement of
the queue. -/
theorem workerPool_spec {α : Type} (sched : Nat → Nat) (w : Nat) (hw : w ≠ 0) (jobs : List α)
    (body : α → FS → Attempt × FS) (fs : FS) :
    ∃ order, order.Perm jobs ∧ workerPool sched w jobs body fs = runJobs body order fs := by
  have hinit : Pool.Inv body jobs fs
      ({ queue := jobs, held := [], fs := fs, attempts := [] } : Pool α) :=
    ⟨[], by simp, rfl⟩
  obtain ⟨⟨done, hperm, hrun⟩, hwork⟩ :=
    Pool.run_inv body jobs fs w hw sched (2 * jobs.length) _ hinit
  have hzero : (Pool.run w body sched (2 * jobs.length)
      ({ queue := jobs, held := [], fs := fs, attempts := [] } : Pool α)).work = 0 := by
    rw [hwork]; simp [Pool.work]
  have hq : (Pool.run w body sched (2 * jobs.length)
      ({ queue := jobs, held := [], fs := fs, attempts := [] } : Pool α)).queue = [] := by
    apply List.length_eq_zero.mp
    unfold Pool.work at hzero; omega
  have hh : (Pool.run w body sched (2 * jobs.length)
      ({ queue := jobs, held := [], fs := fs, attempts := [] } : Pool α)).held = [] := by
    apply List.length_eq_zero.mp
    unfold Pool.work at hzero; omega
  refine ⟨done, ?_, ?_⟩
  · simpa [hq, hh] using hperm
  · unfold workerPool
    simp only
    rw [hrun]

/-- A pool without a worker carries out nothing. -/
theorem workerPool_no_worker {α : Type} (sched : Nat → Nat) (jobs : List α)
    (body : α → FS → Attempt × FS) (fs : FS) :
    workerPool sched 0 jobs body fs = ([], fs) := by
  have hstep : ∀ (choice : Nat) (s : Pool α), s.held = [] → s.step 0 body choice = s := by
    intro choice s hh
    have hr : s.receive 0 = none := by
      unfold Pool.receive
      split <;> simp
    have hc : ∀ i, s.carryOut body i = none := by
      intro i
      unfold Pool.carryOut
      simp [hh]
    unfold Pool.step
    cases choice <;> simp [hr, hc]
  have hrun : ∀ (fuel : Nat) (s : Pool α), s.held = [] → Pool.run 0 body sched fuel s = s := by
    intro fuel
    induction fuel with
    | zero => intro s _; rfl
    | succ fuel ih =>
      intro s hh
      unfold Pool.run
      rw [hstep _ s hh]
      exact ih s hh
  unfold workerPool
  simp only
  rw [hrun _ _ rfl]

/-! ## Basic facts -/

theorem pathExists_iff (fs : FS) (p : Path) :
    fs.pathExists p = true ↔ ∃ n ∈ fs, n.path = p := by
  simp [FS.pathExists]

theorem pathExists_false_iff (fs : FS) (p : Path) :
    fs.pathExists p = false ↔ ∀ n ∈ fs, n.path ≠ p := by
  simp [FS.pathExists]

theorem any_filter_of_imp (fs : FS) (keep P : Node → Bool)
    (h : ∀ n ∈ fs, P n = true → keep n = true) :
    (fs.filter keep).any P = fs.any P := by
  rw [Bool.eq_iff_iff, List.any_eq_true, List.any_eq_true]
  constructor
  · rintro ⟨n, hn, hp⟩
    exact ⟨n, (List.mem_filter.mp hn).1, hp⟩
  · rintro ⟨n, hn, hp⟩
    exact ⟨n, List.mem_filter.mpr ⟨hn, h n hn hp⟩, hp⟩

theorem find_filter_of_imp (fs : FS) (keep P : Node → Bool)
    (h : ∀ n ∈ fs, P n = true → keep n = true) :
    (fs.filter keep).find? P = fs.find? P := by
  induction fs with
  | nil => rfl
  | cons x rest ih =>
    have hrest := ih (fun n hn => h n (List.mem_cons_of_mem _ hn))
    by_cases hk : keep x = true
    · rw [List.filter_cons_of_pos hk, List.find?_cons, List.find?_cons, hrest]
    · have hpx : P x = false := by
        cases hp : P x
        · rfl
        · exact absurd (h x (List.mem_cons_self _ _) hp) hk
      rw [List.filter_cons_of_neg hk, List.find?_cons, hpx, hrest]

theorem findSome_congr {α β : Type} (l : List α) (f g : α → Option β)
    (h : ∀ a ∈ l, f a = g a) : l.findSome? f = l.findSome? g := by
  induction l with
  | nil => rfl
  | cons x rest ih =>
    rw [List.findSome?_cons, List.findSome?_cons, h x (List.mem_cons_self _ _),
      ih (fun a ha => h a (List.mem_cons_of_mem _ ha))]

theorem mem_ancestors (path a : Path) (h : a ∈ path.inits.dropLast) : a <+: path :=
  (List.mem_inits _ _).mp (List.dropLast_subset _ h)

theorem ancestors_join (basePath : Path) (name : String) :
    (filepathJoin basePath name).inits.dropLast = basePath.inits := by
  simp [filepathJoin, List.inits_append, List.inits]

/-! ## What a removal elsewhere leaves alone

`keep` is the filter of a removal.  When it keeps every node above `p`
(`habove`), what the system meets on the way to `p` is unchanged; when it also
keeps every node at or below `p` (`hbelow`), a removal at `p` meets the same
state. -/

theorem lookup_filter (fs : FS) (keep : Node → Bool) (p a : Path) (ha : a <+: p)
    (habove : ∀ n ∈ fs, n.path <+: p → keep n = true) :
    FS.lookup (fs.filter keep) a = fs.lookup a := by
  unfold FS.lookup
  apply find_filter_of_imp
  intro n hn hp
  have : n.path = a := by simpa using hp
  exact habove n hn (this ▸ ha)

theorem componentErr_filter (fs : FS) (keep : Node → Bool) (p a : Path) (ha : a <+: p)
    (habove : ∀ n ∈ fs, n.path <+: p → keep n = true) :
    FS.componentErr (fs.filter keep) a = fs.componentErr a := by
  unfold FS.componentErr
  rw [lookup_filter fs keep p a ha habove]

theorem walkErr_filter (fs : FS) (keep : Node → Bool) (p : Path)
    (habove : ∀ n ∈ fs, n.path <+: p → keep n = true) :
    FS.walkErr (fs.filter keep) p = fs.walkErr p := by
  unfold FS.walkErr
  apply findSome_congr
  intro a ha
  exact componentErr_filter fs keep p a (mem_ancestors p a ha) habove

theorem hasChildren_filter (fs : FS) (keep : Node → Bool) (p : Path)
    (hbelow : ∀ n ∈ fs, p <+: n.path → keep n = true) :
    FS.hasChildren (fs.filter keep) p = fs.hasChildren p := by
  unfold FS.hasChildren
  apply any_filter_of_imp
  intro n hn hp
  simp only [Bool.and_eq_true, List.isPrefixOf_iff_prefix] at hp
  exact hbelow n hn hp.1

theorem parentUnreadable_filter (fs : FS) (keep : Node → Bool) (p : Path)
    (habove : ∀ n ∈ fs, n.path <+: p → keep n = true) :
    FS.parentUnreadable (fs.filter keep) p = fs.parentUnreadable p := by
  unfold FS.parentUnreadable
  rw [lookup_filter fs keep p p.dropLast (List.dropLast_prefix p) habove]

theorem firstRemoveFails_filter (fs : FS) (keep : Node → Bool) (p : Path)
    (habove : ∀ n ∈ fs, n.path <+: p → keep n = true)
    (hbelow : ∀ n ∈ fs, p <+: n.path → keep n = true) :
    FS.firstRemoveFails (fs.filter keep) p = fs.firstRemoveFails p := by
  unfold FS.firstRemoveFails
  rw [lookup_filter fs keep p p (List.prefix_refl p) habove, hasChildren_filter fs keep p hbelow]

theorem refusal_filter (fs : FS) (keep : Node → Bool) (p : Path)
    (habove : ∀ n ∈ fs, n.path <+: p → keep n = true)
    (hbelow : ∀ n ∈ fs, p <+: n.path → keep n = true) :
    FS.refusal (fs.filter keep) p = fs.refusal p := by
  unfold FS.refusal
  rw [walkErr_filter fs keep p habove, firstRemoveFails_filter fs keep p habove hbelow,
    parentUnreadable_filter fs keep p habove]

theorem unremovable_filter (fs : FS) (keep : Node → Bool) (p : Path)
    (hbelow : ∀ n ∈ fs, p <+: n.path → keep n = true) (m : Node) :
    FS.unremovable (fs.filter keep) p m = fs.unremovable p m := by
  unfold FS.unremovable
  congr 1
  apply any_filter_of_imp
  intro a ha hp
  simp only [Bool.and_eq_true, List.isPrefixOf_iff_prefix] at hp
  exact hbelow a ha hp.1.1.1

theorem stuck_filter (fs : FS) (keep : Node → Bool) (p q : Path) (hq : p <+: q)
    (hbelow : ∀ n ∈ fs, p <+: n.path → keep n = true) :
    FS.stuck (fs.filter keep) p q = fs.stuck p q := by
  unfold FS.stuck
  have h1 : (fun m => q.isPrefixOf m.path && FS.unremovable (fs.filter keep) p m) =
      (fun m => q.isPrefixOf m.path && fs.unremovable p m) := by
    funext m
    rw [unremovable_filter fs keep p hbelow m]
  rw [h1]
  apply any_filter_of_imp
  intro m hm hp
  simp only [Bool.and_eq_true, List.isPrefixOf_iff_prefix] at hp
  exact hbelow m hm (hq.trans hp.1)

theorem osRemove_err_filter (fs : FS) (keep : Node → Bool) (p : Path)
    (habove : ∀ n ∈ fs, n.path <+: p → keep n = true)
    (hbelow : ∀ n ∈ fs, p <+: n.path → keep n = true) :
    (osRemove p (fs.filter keep)).1 = (osRemove p fs).1 := by
  unfold osRemove
  rw [walkErr_filter fs keep p habove, lookup_filter fs keep p p (List.prefix_refl p) habove,
    hasChildren_filter fs keep p hbelow]
  cases fs.walkErr p with
  | some e => rfl
  | none =>
    cases fs.lookup p with
    | none => rfl
    | some n =>
      simp only
      split
      · rfl
      · split <;> rfl

theorem osRemoveAll_err_filter (fs : FS) (keep : Node → Bool) (p : Path)
    (habove : ∀ n ∈ fs, n.path <+: p → keep n = true)
    (hbelow : ∀ n ∈ fs, p <+: n.path → keep n = true) :
    (osRemoveAll p (fs.filter keep)).1 = (osRemoveAll p fs).1 := by
  unfold osRemoveAll
  rw [refusal_filter fs keep p habove hbelow,
    stuck_filter fs keep p p (List.prefix_refl p) hbelow]
  cases fs.refusal p <;> rfl

theorem survives_filter (fs : FS) (keep : Node → Bool) (p : Path)
    (habove : ∀ n ∈ fs, n.path <+: p → keep n = true)
    (hbelow : ∀ n ∈ fs, p <+: n.path → keep n = true) (n : Node) :
    FS.survives (fs.filter keep) p n = fs.survives p n := by
  unfold FS.survives
  rw [refusal_filter fs keep p habove hbelow]
  by_cases hp : p <+: n.path
  · rw [stuck_filter fs keep p n.path hp hbelow]
  · have : p.isPrefixOf n.path = false := by
      rw [← Bool.not_eq_true, List.isPrefixOf_iff_prefix]; exact hp
    simp [this]

/-! ## The directory phase in closed form -/

theorem osRemoveAll_fs (p : Path) (fs : FS) :
    (osRemoveAll p fs).2 = fs.filter (fs.survives p) := by
  unfold osRemoveAll
  cases hr : fs.refusal p with
  | some e =>
    simp only
    symm
    apply List.filter_eq_self.mpr
    intro n _
    simp [FS.survives, hr]
  | none =>
    simp only
    apply List.filter_congr
    intro n _
    simp [FS.survives, hr]

theorem survives_of_not_below (fs : FS) (p : Path) (n : Node) (h : ¬ p <+: n.path) :
    fs.survives p n = true := by
  have : p.isPrefixOf n.path = false := by
    rw [← Bool.not_eq_true, List.isPrefixOf_iff_prefix]; exact h
  simp [FS.survives, this]

theorem stuck_mono (fs : FS) (root q q2 : Path) (hq : q <+: q2) (h : fs.stuck root q2 = true) :
    fs.stuck root q = true := by
  unfold FS.stuck at h ⊢
  rw [List.any_eq_true] at h ⊢
  obtain ⟨m, hm, hp⟩ := h
  simp only [Bool.and_eq_true, List.isPrefixOf_iff_prefix] at hp
  exact ⟨m, hm, by
    simp only [Bool.and_eq_true, List.isPrefixOf_iff_prefix]
    exact ⟨hq.trans hp.1, hp.2⟩⟩

/-- When `os.RemoveAll(p)` returns nil, no node at or below `p` survives it. -/
theorem survives_false_of_ok (fs : FS) (p : Path) (hok : (osRemoveAll p fs).1 = none)
    (n : Node) (hn : p <+: n.path) : fs.survives p n = false := by
  unfold osRemoveAll at hok
  cases hr : fs.refusal p with
  | some e => rw [hr] at hok; cases hok
  | none =>
    rw [hr] at hok
    simp only at hok
    have hs : fs.stuck p p = false := by
      cases h : fs.stuck p p
      · rfl
      · rw [h] at hok; cases hok
    have hs2 : fs.stuck p n.path = false := by
      cases h : fs.stuck p n.path
      · rfl
      · rw [stuck_mono fs p p n.path hn h] at hs; cases hs
    have hpre : p.isPrefixOf n.path = true := List.isPrefixOf_iff_prefix.mpr hn
    simp [FS.survives, hr, hs2, hpre]

theorem join_prefix_join (basePath : Path) (a b : String) :
    filepathJoin basePath a <+: filepathJoin basePath b ↔ a = b := by
  constructor
  · intro hp
    have h1 : [a] <+: [b] := (List.prefix_append_right_inj basePath).mp hp
    have h2 : [a] = [b] := h1.eq_of_length rfl
    simpa using h2
  · rintro rfl
    exact List.prefix_refl _

theorem not_join_prefix_base (basePath : Path) (d : String) (a : Path) (ha : a <+: basePath) :
    ¬ filepathJoin basePath d <+: a := by
  intro h
  have := (h.trans ha).length_le
  simp [filepathJoin] at this

/-- Two listed paths are apart: a node above or below one of them is not at
or below the other. -/
theorem siblings_apart (basePath : Path) (d d2 : String) (hne : d ≠ d2) (q : Path)
    (hq : q <+: filepathJoin basePath d2 ∨ filepathJoin basePath d2 <+: q) :
    ¬ filepathJoin basePath d <+: q := by
  intro h
  rcases hq with hq | hq
  · exact hne ((join_prefix_join basePath d d2).mp (h.trans hq))
  · have hlen : (filepathJoin basePath d).length ≤ (filepathJoin basePath d2).length := by
      simp [filepathJoin]
    exact hne ((join_prefix_join basePath d d2).mp (List.prefix_of_prefix_length_le h hq hlen))

theorem all_congr_mem {α : Type} (l : List α) (f g : α → Bool) (h : ∀ a ∈ l, f a = g a) :
    l.all f = l.all g := by
  induction l with
  | nil => rfl
  | cons x rest ih =>
    rw [List.all_cons, List.all_cons, h x (List.mem_cons_self _ _),
      ih (fun a ha => h a (List.mem_cons_of_mem _ ha))]

/-- The directory jobs, carried out one after the other for distinct names:
every job has the result its removal alone has in the state at the start, and
what is left are the nodes that survive each of the removals. -/
theorem runJobs_directoryJob (basePath : Path) (names : List String) (hnd : names.Nodup)
    (fs : FS) :
    runJobs (directoryJob basePath) names fs =
      (names.map (fun d => (filepathJoin basePath d,
          (osRemoveAll (filepathJoin basePath d) fs).1)),
       fs.filter (fun n => names.all (fun d => fs.survives (filepathJoin basePath d) n))) := by
  induction names generalizing fs with
  | nil => simp [runJobs]
  | cons d rest ih =>
    obtain ⟨hd, hrest⟩ := List.nodup_cons.mp hnd
    have habove : ∀ d2 ∈ rest, ∀ n ∈ fs, n.path <+: filepathJoin basePath d2 →
        fs.survives (filepathJoin basePath d) n = true := by
      intro d2 hd2 n _ hn
      exact survives_of_not_below fs _ n
        (siblings_apart basePath d d2 (fun h => hd (h ▸ hd2)) n.path (Or.inl hn))
    have hbelow : ∀ d2 ∈ rest, ∀ n ∈ fs, filepathJoin basePath d2 <+: n.path →
        fs.survives (filepathJoin basePath d) n = true := by
      intro d2 hd2 n _ hn
      exact survives_of_not_below fs _ n
        (siblings_apart basePath d d2 (fun h => hd (h ▸ hd2)) n.path (Or.inr hn))
    simp only [runJobs, directoryJob, osRemoveAll_fs, ih hrest, List.map_cons]
    refine Prod.ext ?_ ?_
    · simp only [List.cons.injEq, true_and]
      apply List.map_congr_left
      intro d2 hd2
      rw [osRemoveAll_err_filter fs _ _ (habove d2 hd2) (hbelow d2 hd2)]
    · simp only [List.filter_filter]
      apply List.filter_congr
      intro n _
      have hall : (rest.all fun d2 => FS.survives (fs.filter
            (fs.survives (filepathJoin basePath d))) (filepathJoin basePath d2) n) =
          rest.all (fun d2 => fs.survives (filepathJoin basePath d2) n) := by
        apply all_congr_mem
        intro d2 hd2
        exact survives_filter fs _ _ (habove d2 hd2) (hbelow d2 hd2) n
      rw [List.all_cons, hall, Bool.and_comm]

theorem directoryWorkerCount_ne_zero (numCPU : Nat) : directoryWorkerCount numCPU ≠ 0 := by
  unfold directoryWorkerCount; split <;> omega

theorem directoriesToDelete_nodup : directoriesToDelete.Nodup := by decide

/-- The directory phase in closed form: the attempts are those of some
rearrangement of the listed names, each with the result its removal alone has
in the state at the start, and what is left are the nodes that survive each
of the 15 removals. -/
theorem deleteDirectories_run (sched : Nat → Nat) (numCPU : Nat) (basePath : Path) (fs : FS) :
    (deleteDirectories sched numCPU basePath fs).attempts.Perm
      (directoriesToDelete.map (fun d => (filepathJoin basePath d,
          (osRemoveAll (filepathJoin basePath d) fs).1))) ∧
    (deleteDirectories sched numCPU basePath fs).fs =
      fs.filter (fun n =>
        directoriesToDelete.all (fun d => fs.survives (filepathJoin basePath d) n)) := by
  obtain ⟨order, hperm, hrun⟩ := workerPool_spec sched (directoryWorkerCount numCPU)
    (directoryWorkerCount_ne_zero numCPU) directoriesToDelete (directoryJob basePath) fs
  simp only [deleteDirectories, hrun,
    runJobs_directoryJob basePath order (hperm.nodup_iff.mpr directoriesToDelete_nodup)]
  refine ⟨hperm.map _, ?_⟩
  apply List.filter_congr
  intro n _
  rw [Bool.eq_iff_iff, List.all_eq_true, List.all_eq_true]
  simp only [hperm.mem_iff]

/-- The attempts of the directory phase: one for each listed name. -/
theorem mem_deleteDirectories_attempts (sched : Nat → Nat) (numCPU : Nat) (basePath : Path)
    (fs : FS) (a : Attempt) :
    a ∈ (deleteDirectories sched numCPU basePath fs).attempts ↔
      ∃ d ∈ directoriesToDelete,
        a = (filepathJoin basePath d, (osRemoveAll (filepathJoin basePath d) fs).1) := by
  rw [(deleteDirectories_run sched numCPU basePath fs).1.mem_iff, List.mem_map]
  constructor
  · rintro ⟨d, hd, rfl⟩; exact ⟨d, hd, rfl⟩
  · rintro ⟨d, hd, rfl⟩; exact ⟨d, hd, rfl⟩

/-- Membership in the state after the directory phase. -/
theorem mem_deleteDirectories_fs (sched : Nat → Nat) (numCPU : Nat) (basePath : Path)
    (fs : FS) (n : Node) :
    n ∈ (deleteDirectories sched numCPU basePath fs).fs ↔
      n ∈ fs ∧ ∀ d ∈ directoriesToDelete, fs.survives (filepathJoin basePath d) n = true := by
  rw [(deleteDirectories_run sched numCPU basePath fs).2, List.mem_filter, List.all_eq_true]

/-- The removal calls on three states: a directory that is not empty and
cannot be listed stays with its content and the call fails; below a regular
file the call fails with ENOTDIR; below a directory that cannot be searched it
fails with EACCES; a directory that is not empty, in a parent that cannot be
listed, stays and the call fails. -/
theorem osRemoveAll_examples :
    osRemoveAll ["proj", "obj"] unreadableObjFS = (some Err.permission, unreadableObjFS) ∧
    (osRemoveAll ["proj", "Temp"] unreadableObjFS).1 = none ∧
    (osRemoveAll ["proj", "Temp"] unreadableObjFS).2.pathExists ["proj", "Temp", "x"] = false ∧
    osRemoveAll ["proj", "obj"] fileBaseFS = (some Err.notDir, fileBaseFS) ∧
    osRemoveAll ["proj", "obj"] unsearchableFS = (some Err.permission, unsearchableFS) ∧
    osRemoveAll ["proj", "Library"] unlistableBusyFS = (some Err.permission, unlistableBusyFS) ∧
    (osRemoveAll ["proj", "Temp"] unlistableBusyFS).1 = none := by
  refine ⟨by decide, by decide, by decide, by decide, by decide, by decide, by decide⟩

/-! ## The file phase in closed form -/

theorem node_unique (fs : FS) (hnd : (fs.map Node.path).Nodup) (n m : Node)
    (hn : n ∈ fs) (hm : m ∈ fs) (h : n.path = m.path) : n = m :=
  List.inj_on_of_nodup_map hnd hn hm h

theorem nodup_filter (fs : FS) (hnd : (fs.map Node.path).Nodup) (keep : Node → Bool) :
    ((fs.filter keep).map Node.path).Nodup :=
  hnd.sublist ((List.filter_sublist fs).map Node.path)

theorem osRemove_fs (p : Path) (fs : FS) :
    (osRemove p fs).2 = fs.filter (fun m => !(m.path == p && (osRemove p fs).1.isNone)) := by
  have hself : ∀ e : Err, fs = fs.filter (fun m => !(m.path == p && (some e).isNone)) := by
    intro e
    symm
    apply List.filter_eq_self.mpr
    intro m _
    simp
  unfold osRemove
  cases fs.walkErr p with
  | some e => exact hself e
  | none =>
    cases fs.lookup p with
    | none => exact hself _
    | some n =>
      simp only
      split
      · exact hself _
      · split
        · exact hself _
        · apply List.filter_congr
          intro m _
          simp [bne]

/-- The file jobs, carried out one after the other for distinct entries of
`basePath`: every job has the result its removal alone has in the state at
the start, and what is left is everything but the entries whose removal
succeeds. -/
theorem runJobs_fileJob (basePath : Path) (ps : List Path) (fs : FS) (hps : ps.Nodup)
    (hsib : ∀ p ∈ ps, ∃ name, p = filepathJoin basePath name) :
    runJobs fileJob ps fs =
      (ps.map (fun p => (p, (osRemove p fs).1)),
       fs.filter (fun m => !(ps.contains m.path && (osRemove m.path fs).1.isNone))) := by
  induction ps generalizing fs with
  | nil => simp [runJobs]
  | cons p rest ih =>
    obtain ⟨hp, hrest⟩ := List.nodup_cons.mp hps
    obtain ⟨name, rfl⟩ := hsib _ (List.mem_cons_self _ _)
    have hkeep : ∀ p2 ∈ rest, ∀ n ∈ fs,
        (n.path <+: p2 ∨ p2 <+: n.path) →
        (!(n.path == filepathJoin basePath name &&
          (osRemove (filepathJoin basePath name) fs).1.isNone)) = true := by
      intro p2 hp2 n _ hn
      obtain ⟨name2, rfl⟩ := hsib p2 (List.mem_cons_of_mem _ hp2)
      have hne : name ≠ name2 := fun h => hp (h ▸ hp2)
      have hnp : n.path ≠ filepathJoin basePath name := by
        intro h
        exact siblings_apart basePath name name2 hne n.path hn (h ▸ List.prefix_refl _)
      simp [hnp]
    have herr : ∀ p2 ∈ rest,
        (osRemove p2 (fs.filter (fun m => !(m.path == filepathJoin basePath name &&
          (osRemove (filepathJoin basePath name) fs).1.isNone)))).1 = (osRemove p2 fs).1 := by
      intro p2 hp2
      exact osRemove_err_filter fs _ p2 (fun n hn h => hkeep p2 hp2 n hn (Or.inl h))
        (fun n hn h => hkeep p2 hp2 n hn (Or.inr h))
    simp only [runJobs, fileJob, osRemove_fs (filepathJoin basePath name) fs,
      ih _ hrest (fun q hq => hsib q (List.mem_cons_of_mem _ hq)), List.map_cons]
    refine Prod.ext ?_ ?_
    · simp only [List.cons.injEq, true_and]
      apply List.map_congr_left
      intro p2 hp2
      rw [herr p2 hp2]
    · simp only [List.filter_filter]
      apply List.filter_congr
      intro m _
      rw [List.contains_cons]
      by_cases hm : m.path = filepathJoin basePath name
      · have hnot : rest.contains m.path = false := by
          rw [hm]; simpa using hp
        have heq : (m.path == filepathJoin basePath name) = true := by simpa using hm
        rw [hnot, heq, hm]
        cases (osRemove (filepathJoin basePath name) fs).1.isNone <;> rfl
      · have hne2 : (m.path == filepathJoin basePath name) = false := by simpa using hm
        rw [hne2]
        by_cases hin : m.path ∈ rest
        · rw [herr m.path hin]
          cases rest.contains m.path <;> cases (osRemove m.path fs).1.isNone <;> rfl
        · have hc : rest.contains m.path = false := by simpa using hin
          rw [hc]
          rfl

theorem entryOf_eq_some (dir : Path) (n : Node) (e : DirEntry) :
    entryOf dir n = some e ↔ n.path = dir ++ [e.name] ∧ e.isDir = n.isDir := by
  unfold entryOf
  constructor
  · intro h
    split at h
    · rename_i hd
      split at h
      · rename_i name hlast
        have := List.dropLast_append_getLast? name (by simpa using hlast)
        cases h
        exact ⟨by rw [← hd]; exact this.symm, rfl⟩
      · cases h
    · cases h
  · rintro ⟨hp, hd⟩
    have h1 : n.path.dropLast = dir := by rw [hp]; simp
    have h2 : n.path.getLast? = some e.name := by rw [hp]; simp
    simp [h1, h2, ← hd]

theorem isTarget_iff (basePath : Path) (n : Node) :
    isTarget basePath n = true ↔
      ∃ name, n.path = filepathJoin basePath name ∧ n.isDir = false ∧
        filepathExt name ∈ fileExtensionsToDelete := by
  unfold isTarget
  constructor
  · intro h
    split at h
    · rename_i e he
      obtain ⟨hp, hd⟩ := (entryOf_eq_some basePath n e).mp he
      simp only [Bool.and_eq_true, Bool.not_eq_true'] at h
      exact ⟨e.name, hp, by rw [← hd]; exact h.1, by simpa using h.2⟩
    · cases h
  · rintro ⟨name, hp, hd, hx⟩
    have : entryOf basePath n = some ⟨name, n.isDir⟩ :=
      (entryOf_eq_some basePath n ⟨name, n.isDir⟩).mpr ⟨hp, rfl⟩
    simp [this, hd, hx]

theorem collectCandidates_listing (basePath : Path) (fs : FS) :
    collectCandidates basePath (fs.filterMap (entryOf basePath)) =
      (fs.filter (isTarget basePath)).map Node.path := by
  induction fs with
  | nil => rfl
  | cons n rest ih =>
    cases he : entryOf basePath n with
    | none =>
      have ht : isTarget basePath n = false := by simp [isTarget, he]
      simp [List.filterMap_cons, he, List.filter_cons, ht, ih]
    | some e =>
      obtain ⟨hp, hd⟩ := (entryOf_eq_some basePath n e).mp he
      have ht : isTarget basePath n =
          (!e.isDir && fileExtensionsToDelete.contains (filepathExt e.name)) := by
        simp [isTarget, he]
      rw [List.filterMap_cons, he]
      simp only [collectCandidates, List.filter_cons, ht, ih]
      cases e.isDir
      · by_cases hx : filepathExt e.name ∈ fileExtensionsToDelete
        · simp [hx, hp, filepathJoin]
        · simp [hx]
      · simp

theorem osReadDir_ok (basePath : Path) (fs : FS) (entries : List DirEntry)
    (h : osReadDir basePath fs = Except.ok entries) :
    entries = fs.filterMap (entryOf basePath) := by
  unfold osReadDir at h
  split at h
  · cases h
  · split at h
    · cases h
    · split at h
      · cases h
      · split at h
        · cases h
        · cases h; rfl

theorem fileWorkerCount_ne_zero (numCPU c : Nat) (hc : c ≠ 0) : fileWorkerCount numCPU c ≠ 0 := by
  unfold fileWorkerCount
  simp only
  split <;> split <;> omega

/-- The file phase in closed form, when the listing succeeds: what is left is
everything but the candidates whose removal succeeds, and the attempts are
those of some rearrangement of the candidates, each with the result its
removal alone has in the state at the start. -/
theorem deleteFiles_listed (sched : Nat → Nat)
    (numCPU : Nat) (basePath : Path) (fs : FS) (hnd : (fs.map Node.path).Nodup)
    (entries : List DirEntry) (hlist : osReadDir basePath fs = Except.ok entries) :
    (deleteFiles sched numCPU basePath fs).fs =
        fs.filter (fun m => !(isTarget basePath m && (osRemove m.path fs).1.isNone)) ∧
    (deleteFiles sched numCPU basePath fs).attempts.Perm
        ((collectCandidates basePath entries).map (fun p => (p, (osRemove p fs).1))) ∧
    (deleteFiles sched numCPU basePath fs).err = none := by
  have hent := osReadDir_ok basePath fs entries hlist
  subst hent
  have hc := collectCandidates_listing basePath fs
  unfold deleteFiles
  rw [hlist]
  simp only
  split
  · rename_i hlen
    have hnil : collectCandidates basePath (fs.filterMap (entryOf basePath)) = [] :=
      List.length_eq_zero.mp hlen
    refine ⟨?_, by simp [hnil], rfl⟩
    symm
    apply List.filter_eq_self.mpr
    intro m hm
    have : isTarget basePath m = false := by
      by_contra ht
      have hmem : m.path ∈ (fs.filter (isTarget basePath)).map Node.path :=
        List.mem_map.mpr ⟨m, List.mem_filter.mpr ⟨hm, by simpa using ht⟩, rfl⟩
      rw [← hc, hnil] at hmem
      cases hmem
    simp [this]
  · rename_i hlen
    have hw := fileWorkerCount_ne_zero numCPU _ hlen
    obtain ⟨order, hperm, hrun⟩ := workerPool_spec sched _ hw
      (collectCandidates basePath (fs.filterMap (entryOf basePath))) fileJob fs
    have hmem : ∀ p, p ∈ order ↔ ∃ n ∈ fs, isTarget basePath n = true ∧ n.path = p := by
      intro p
      rw [hperm.mem_iff, hc, List.mem_map]
      simp only [List.mem_filter, and_assoc]
    have hps : order.Nodup := by
      rw [hperm.nodup_iff, hc]
      exact nodup_filter fs hnd _
    have hsib : ∀ p ∈ order, ∃ name, p = filepathJoin basePath name := by
      intro p hp
      obtain ⟨n, _, ht, hnp⟩ := (hmem p).mp hp
      obtain ⟨name, hname, _, _⟩ := (isTarget_iff basePath n).mp ht
      exact ⟨name, hnp ▸ hname⟩
    simp only [hrun, runJobs_fileJob basePath order fs hps hsib, and_true]
    refine ⟨?_, hperm.map _⟩
    apply List.filter_congr
    intro m hm
    by_cases ht : isTarget basePath m = true
    · have : m.path ∈ order := (hmem m.path).mpr ⟨m, hm, ht, rfl⟩
      simp [ht, this]
    · have hn : m.path ∉ order := by
        intro hin
        obtain ⟨n, hn, htn, hnp⟩ := (hmem m.path).mp hin
        have : n = m := node_unique fs hnd n m hn hm hnp
        exact ht (this ▸ htn)
      have ht2 : isTarget basePath m = false := by simpa using ht
      simp [ht2, hn]

theorem lastDotSuffixChars_append (a b : List Char) (hb : '.' ∈ b) :
    lastDotSuffixChars (a ++ b) = lastDotSuffixChars b := by
  induction a with
  | nil => rfl
  | cons x a ih =>
    have : '.' ∈ a ++ b := List.mem_append_right a hb
    simp [lastDotSuffixChars, this, ih]

theorem lastDotSuffixChars_no_dot (b : List Char) (hb : '.' ∉ b) :
    lastDotSuffixChars b = [] := by
  induction b with
  | nil => rfl
  | cons x b ih =>
    have h1 : '.' ∉ b := fun h => hb (List.mem_cons_of_mem _ h)
    have h2 : x ≠ '.' := fun h => hb (h ▸ List.mem_cons_self _ _)
    simp [lastDotSuffixChars, h1, h2]

theorem lastDotSuffixChars_suffix (a b : List Char) (hb : '.' ∉ b) :
    lastDotSuffixChars (a ++ b) = [] ∨ b <:+ lastDotSuffixChars (a ++ b) := by
  induction a with
  | nil => exact Or.inl (lastDotSuffixChars_no_dot b hb)
  | cons x a ih =>
    simp only [List.cons_append, lastDotSuffixChars]
    split
    · exact ih
    · split
      · exact Or.inr ((List.suffix_append a b).trans (List.suffix_cons x _))
      · exact Or.inl rfl

/-- The loop of `filepath.Ext` against the last-dot suffix: they agree unless
a path separator follows the last dot, where the loop yields the empty string. -/
theorem extScan_eq (rev acc : List Char) (hdot : '.' ∉ acc)
    (hsep : ∀ c ∈ acc, isPathSeparator c = false) :
    extScan rev acc =
      if (lastDotSuffixChars (rev.reverse ++ acc)).any isPathSeparator then []
      else lastDotSuffixChars (rev.reverse ++ acc) := by
  induction rev generalizing acc with
  | nil => simp [extScan, lastDotSuffixChars_no_dot acc hdot]
  | cons c r ih =>
    have happ : (c :: r).reverse ++ acc = r.reverse ++ (c :: acc) := by simp
    rw [happ]
    unfold extScan
    by_cases hc : isPathSeparator c = true
    · have hne : c ≠ '.' := by
        rintro rfl; revert hc; decide
      have hdot' : '.' ∉ c :: acc := by
        intro h
        rcases List.mem_cons.mp h with h | h
        · exact hne h.symm
        · exact hdot h
      rw [if_pos hc]
      rcases lastDotSuffixChars_suffix r.reverse (c :: acc) hdot' with h | h
      · simp [h]
      · have hmem : c ∈ lastDotSuffixChars (r.reverse ++ c :: acc) :=
          h.subset (List.mem_cons_self _ _)
        have : (lastDotSuffixChars (r.reverse ++ c :: acc)).any isPathSeparator = true :=
          List.any_eq_true.mpr ⟨c, hmem, hc⟩
        simp [this]
    · rw [if_neg hc]
      have hc' : isPathSeparator c = false := by simpa using hc
      by_cases hd : c = '.'
      · subst hd
        rw [if_pos rfl, lastDotSuffixChars_append _ _ (List.mem_cons_self _ _)]
        have h1 : lastDotSuffixChars ('.' :: acc) = '.' :: acc := by
          simp [lastDotSuffixChars, hdot]
        have h2 : ('.' :: acc).any isPathSeparator = false := by
          rw [List.any_eq_false]
          intro x hx
          rcases List.mem_cons.mp hx with h | h
          · subst h; simp [hc']
          · simp [hsep x h]
        rw [h1, h2]; rfl
      · rw [if_neg hd]
        apply ih
        · intro h
          rcases List.mem_cons.mp h with h | h
          · exact hd h.symm
          · exact hdot h
        · intro x hx
          rcases List.mem_cons.mp hx with h | h
          · subst h; exact hc'
          · exact hsep x h

theorem filepathExt_eq (name : String) :
    filepathExt name =
      if (lastDotSuffixChars name.data).any isPathSeparator then ""
      else lastDotSuffix name := by
  unfold filepathExt lastDotSuffix
  rw [extScan_eq name.data.reverse [] (by simp) (by simp)]
  simp only [List.reverse_reverse, List.append_nil]
  split <;> rfl

/-- The extension test of `deleteFiles` is the test on the last-dot suffix. -/
theorem filepathExt_mem_iff (name : String) :
    filepathExt name ∈ fileExtensionsToDelete ↔ lastDotSuffix name ∈ fileExtensionsToDelete := by
  rw [filepathExt_eq]
  split
  · rename_i hsep
    constructor
    · intro h
      exact absurd h (by decide)
    · intro h
      exfalso
      have hall : ∀ x ∈ fileExtensionsToDelete, x.data.any isPathSeparator = false := by decide
      have := hall _ h
      simp only [lastDotSuffix] at this
      rw [this] at hsep
      cases hsep
  · rfl

/-! ## The directory purger -/

/-- After the directory phase nothing is left at or below a listed path whose
removal did not fail. -/
theorem deleteDirectories_gone (sched : Nat → Nat) (numCPU : Nat) (basePath : Path) (fs : FS)
    (name : String) (hname : name ∈ directoriesToDelete)
    (hok : (osRemoveAll (filepathJoin basePath name) fs).1 = none)
    (q : Path) (hq : filepathJoin basePath name <+: q) :
    (deleteDirectories sched numCPU basePath fs).fs.pathExists q = false := by
  rw [pathExists_false_iff]
  intro n hn hnq
  subst hnq
  have h1 := ((mem_deleteDirectories_fs sched numCPU basePath fs n).mp hn).2 name hname
  rw [survives_false_of_ok fs _ hok n hq] at h1
  cases h1

/-- C1: in every filesystem state in which each of the recursive removals
succeeds, and under every scheduling of the workers, after
`deleteDirectories basePath` no listed name exists under `basePath`, nor
anything below it. -/
theorem deleteDirectories_removes_listed (sched : Nat → Nat) (numCPU : Nat)
    (basePath : Path) (fs : FS)
    (hok : ∀ name ∈ directoriesToDelete,
      (osRemoveAll (filepathJoin basePath name) fs).1 = none) :
    ∀ name ∈ directoriesToDelete, ∀ q, filepathJoin basePath name <+: q →
      (deleteDirectories sched numCPU basePath fs).fs.pathExists q = false := by
  intro name hname q hq
  exact deleteDirectories_gone sched numCPU basePath fs name hname (hok name hname) q hq

/-- C1 on the example of the specification: `obj`, its content and `Library`
(present before) and `Temp` (absent before) do not exist afterwards. -/
theorem deleteDirectories_removes_listed_witness :
    specExampleFS.pathExists ["proj", "obj", "a.o"] = true ∧
    (deleteDirectories (fun t => t % 3) 4 projectDir specExampleFS).fs.pathExists
      ["proj", "obj"] = false ∧
    (deleteDirectories (fun t => t % 3) 4 projectDir specExampleFS).fs.pathExists
      ["proj", "obj", "a.o"] = false ∧
    (deleteDirectories (fun t => t % 3) 4 projectDir specExampleFS).fs.pathExists
      ["proj", "Library"] = false ∧
    (deleteDirectories (fun t => t % 3) 4 projectDir specExampleFS).fs.pathExists
      ["proj", "Temp"] = false :=
  ⟨by decide,
   deleteDirectories_removes_listed (fun t => t % 3) 4 projectDir specExampleFS
     (by decide) "obj" (by decide) ["proj", "obj"] (by decide),
   deleteDirectories_removes_listed (fun t => t % 3) 4 projectDir specExampleFS
     (by decide) "obj" (by decide) ["proj", "obj", "a.o"] (by decide),
   deleteDirectories_removes_listed (fun t => t % 3) 4 projectDir specExampleFS
     (by decide) "Library" (by decide) ["proj", "Library"] (by decide),
   deleteDirectories_removes_listed (fun t => t % 3) 4 projectDir specExampleFS
     (by decide) "Temp" (by decide) ["proj", "Temp"] (by decide)⟩

theorem count_eq_one_of_nodup {l : List Path} (hnd : l.Nodup) {p : Path} (hp : p ∈ l) :
    l.count p = 1 := by
  induction l with
  | nil => cases hp
  | cons x l ih =>
    obtain ⟨hx, hl⟩ := List.nodup_cons.mp hnd
    rw [List.count_cons]
    by_cases hxp : x = p
    · subst hxp
      simp [List.count_eq_zero_of_not_mem hx]
    · have hne : (x == p) = false := by simpa using hxp
      rcases List.mem_cons.mp hp with h | h
      · exact absurd h.symm hxp
      · simp [ih hl h, hne]

theorem filepathJoin_injective (basePath : Path) :
    Function.Injective (filepathJoin basePath) := by
  intro a b h
  simpa [filepathJoin] using h

theorem directoryPaths_nodup (basePath : Path) :
    (directoriesToDelete.map (filepathJoin basePath)).Nodup :=
  directoriesToDelete_nodup.map (filepathJoin_injective basePath)

/-- The paths the directory phase calls `os.RemoveAll` on are a rearrangement
of the 15 listed paths. -/
theorem deleteDirectories_attempted (sched : Nat → Nat) (numCPU : Nat)
    (basePath : Path) (fs : FS) :
    ((deleteDirectories sched numCPU basePath fs).attempts.map Prod.fst).Perm
      (directoriesToDelete.map (filepathJoin basePath)) := by
  have h := ((deleteDirectories_run sched numCPU basePath fs).1).map Prod.fst
  rw [List.map_map] at h
  exact h

/-- The candidates of a state: the paths of its target nodes. -/
theorem mem_candidates (basePath : Path) (fs : FS) (entries : List DirEntry)
    (hlist : osReadDir basePath fs = Except.ok entries) (p : Path) :
    p ∈ collectCandidates basePath entries ↔ ∃ n ∈ fs, isTarget basePath n = true ∧ n.path = p := by
  rw [osReadDir_ok basePath fs entries hlist, collectCandidates_listing, List.mem_map]
  simp only [List.mem_filter, and_assoc]

theorem candidates_nodup (basePath : Path) (fs : FS) (hnd : (fs.map Node.path).Nodup)
    (entries : List DirEntry) (hlist : osReadDir basePath fs = Except.ok entries) :
    (collectCandidates basePath entries).Nodup := by
  rw [osReadDir_ok basePath fs entries hlist, collectCandidates_listing]
  exact nodup_filter fs hnd _

/-- The paths the file phase calls `os.Remove` on are a rearrangement of the
candidates. -/
theorem deleteFiles_attempted (sched : Nat → Nat)
    (numCPU : Nat) (basePath : Path) (fs : FS) (hnd : (fs.map Node.path).Nodup)
    (entries : List DirEntry) (hlist : osReadDir basePath fs = Except.ok entries) :
    ((deleteFiles sched numCPU basePath fs).attempts.map Prod.fst).Perm
      (collectCandidates basePath entries) := by
  have h := ((deleteFiles_listed sched numCPU basePath fs hnd entries hlist).2.1).map Prod.fst
  have hid : (Prod.fst ∘ fun p : Path => (p, (osRemove p fs).1)) = id := rfl
  rw [List.map_map, hid, List.map_id] at h
  exact h

/-- After the file phase a candidate whose removal did not fail is gone. -/
theorem deleteFiles_gone (sched : Nat → Nat)
    (numCPU : Nat) (basePath : Path) (fs : FS) (hnd : (fs.map Node.path).Nodup)
    (entries : List DirEntry) (hlist : osReadDir basePath fs = Except.ok entries)
    (p : Path) (hp : p ∈ collectCandidates basePath entries) (hok : (osRemove p fs).1 = none) :
    (deleteFiles sched numCPU basePath fs).fs.pathExists p = false := by
  obtain ⟨n, hn, ht, hnp⟩ := (mem_candidates basePath fs entries hlist p).mp hp
  subst hnp
  rw [pathExists_false_iff, (deleteFiles_listed sched numCPU basePath fs hnd entries hlist).1]
  intro m hm hmp
  obtain ⟨hmfs, hkeep⟩ := List.mem_filter.mp hm
  have : m = n := node_unique fs hnd m n hmfs hn hmp
  subst this
  simp [ht, hok] at hkeep

/-- C3: whatever removals fail, and however the workers are scheduled, every
path of the batch is attempted exactly once (the attempts are a rearrangement
of the batch, so none is retried and none is skipped), the result of each
attempt is the one the removal of that path alone has in the state at the
start (so no failure changes the outcome of another path), and every path
whose removal succeeded is gone afterwards.  This holds for the 15 directory
paths of `deleteDirectories` in every state, and for the candidates of
`deleteFiles` whenever there is a batch, that is, whenever the listing of the
base path succeeds. -/
theorem batch_survives_failures (schedD schedF : Nat → Nat) (numCPU : Nat) (basePath : Path)
    (fs : FS) :
    (((deleteDirectories schedD numCPU basePath fs).attempts.map Prod.fst).Perm
        (directoriesToDelete.map (filepathJoin basePath)) ∧
      (deleteDirectories schedD numCPU basePath fs).attempts.Perm
        (directoriesToDelete.map (fun d =>
          (filepathJoin basePath d, (osRemoveAll (filepathJoin basePath d) fs).1))) ∧
      (∀ name ∈ directoriesToDelete,
        ((deleteDirectories schedD numCPU basePath fs).attempts.map Prod.fst).count
          (filepathJoin basePath name) = 1) ∧
      (∀ a ∈ (deleteDirectories schedD numCPU basePath fs).attempts, a.2 = none →
        ∀ q, a.1 <+: q →
          (deleteDirectories schedD numCPU basePath fs).fs.pathExists q = false)) ∧
    (fs.WF → ∀ entries, osReadDir basePath fs = Except.ok entries →
      ((deleteFiles schedF numCPU basePath fs).attempts.map Prod.fst).Perm
        (collectCandidates basePath entries) ∧
      (deleteFiles schedF numCPU basePath fs).attempts.Perm
        ((collectCandidates basePath entries).map (fun p => (p, (osRemove p fs).1))) ∧
      (∀ p ∈ collectCandidates basePath entries,
        ((deleteFiles schedF numCPU basePath fs).attempts.map Prod.fst).count p = 1) ∧
      (∀ a ∈ (deleteFiles schedF numCPU basePath fs).attempts, a.2 = none →
        (deleteFiles schedF numCPU basePath fs).fs.pathExists a.1 = false)) := by
  have hpD := deleteDirectories_attempted schedD numCPU basePath fs
  refine ⟨⟨hpD, (deleteDirectories_run schedD numCPU basePath fs).1, ?_, ?_⟩, ?_⟩
  · intro name hname
    exact count_eq_one_of_nodup (hpD.nodup_iff.mpr (directoryPaths_nodup basePath))
      (hpD.mem_iff.mpr (List.mem_map_of_mem _ hname))
  · intro a ha hnone q hq
    obtain ⟨d, hd, rfl⟩ := (mem_deleteDirectories_attempts schedD numCPU basePath fs a).mp ha
    exact deleteDirectories_gone schedD numCPU basePath fs d hd hnone q hq
  · intro hwf entries hlist
    have hpF := deleteFiles_attempted schedF numCPU basePath fs hwf.1 entries hlist
    refine ⟨hpF, (deleteFiles_listed schedF numCPU basePath fs hwf.1 entries hlist).2.1, ?_, ?_⟩
    · intro p hp
      exact count_eq_one_of_nodup
        (hpF.nodup_iff.mpr (candidates_nodup basePath fs hwf.1 entries hlist))
        (hpF.mem_iff.mpr hp)
    · intro a ha hnone
      rw [(deleteFiles_listed schedF numCPU basePath fs hwf.1 entries hlist).2.1.mem_iff] at ha
      obtain ⟨p, hp, rfl⟩ := List.mem_map.mp ha
      exact deleteFiles_gone schedF numCPU basePath fs hwf.1 entries hlist p hp hnone

/-- C3 on a project where the removal of `Library` fails (a locked file inside)
and the removal of `notes.txt` fails (locked): each is attempted once, and
`obj` and `project.sln`, whose removals succeed, are gone all the same; and on
a project directory that cannot be listed, where the removal of `Library`
fails and `Temp`, whose removal succeeds, is gone. -/
theorem batch_survives_failures_witness :
    ((["proj", "Library"], some Err.permission) ∈
        (deleteDirectories (fun _ => 0) 4 projectDir lockedFS).attempts ∧
      ((deleteDirectories (fun _ => 0) 4 projectDir lockedFS).attempts.map Prod.fst).count
        (filepathJoin projectDir "Library") = 1 ∧
      (deleteDirectories (fun _ => 0) 4 projectDir lockedFS).fs.pathExists
        ["proj", "obj", "a.o"] = false) ∧
    ((["proj", "notes.txt"], some Err.permission) ∈
        (deleteFiles (fun t => t % 3) 4 projectDir lockedFS).attempts ∧
      ((deleteFiles (fun t => t % 3) 4 projectDir lockedFS).attempts.map Prod.fst).count
        ["proj", "notes.txt"] = 1 ∧
      (deleteFiles (fun t => t % 3) 4 projectDir lockedFS).fs.pathExists
        ["proj", "project.sln"] = false) ∧
    ((["proj", "Library"], some Err.permission) ∈
        (deleteDirectories (fun _ => 0) 4 projectDir unlistableBusyFS).attempts ∧
      ((deleteDirectories (fun _ => 0) 4 projectDir unlistableBusyFS).attempts.map
        Prod.fst).count (filepathJoin projectDir "Library") = 1 ∧
      (deleteDirectories (fun _ => 0) 4 projectDir unlistableBusyFS).fs.pathExists
        ["proj", "Temp"] = false) :=
  have h := batch_survives_failures (fun _ => 0) (fun t => t % 3) 4 projectDir lockedFS
  have hF := h.2 (by decide) (lockedFS.filterMap (entryOf projectDir)) rfl
  have hU := batch_survives_failures (fun _ => 0) (fun t => t % 3) 4 projectDir
    unlistableBusyFS
  ⟨⟨by decide, h.1.2.2.1 "Library" (by decide),
      h.1.2.2.2 (["proj", "obj"], none) (by decide) rfl ["proj", "obj", "a.o"] (by decide)⟩,
    ⟨by decide, hF.2.2.1 ["proj", "notes.txt"] (by decide),
      hF.2.2.2 (["proj", "project.sln"], none) (by decide) rfl⟩,
    ⟨by decide, hU.1.2.2.1 "Library" (by decide),
      hU.1.2.2.2 (["proj", "Temp"], none) (by decide) rfl ["proj", "Temp"] (by decide)⟩⟩

theorem directoryLine_isFailure (a : Attempt) :
    (directoryLine a).isFailure = false ↔ a.2 = none := by
  obtain ⟨p, e⟩ := a
  cases e <;> simp [directoryLine, Line.isFailure]

theorem fileLine_isFailure (a : Attempt) :
    (fileLine a).isFailure = false ↔ a.2 = none := by
  obtain ⟨p, e⟩ := a
  cases e <;> simp [fileLine, Line.isFailure]

/-- The way to a listed path is the way through the base path: it is free when
each existing component of the base path, itself included, is a directory
that can be searched. -/
theorem walkErr_join (fs : FS) (basePath : Path) (d : String) :
    fs.walkErr (filepathJoin basePath d) = none ↔
      ∀ a, a <+: basePath → fs.componentErr a = none := by
  unfold FS.walkErr
  rw [ancestors_join, List.findSome?_eq_none_iff]
  simp only [List.mem_inits]

theorem walkErr_join_filter (fs : FS) (keep : Node → Bool) (basePath : Path) (d : String)
    (habove : ∀ n ∈ fs, n.path <+: basePath → keep n = true) :
    FS.walkErr (fs.filter keep) (filepathJoin basePath d) =
      fs.walkErr (filepathJoin basePath d) := by
  unfold FS.walkErr
  rw [ancestors_join]
  apply findSome_congr
  intro a ha
  exact componentErr_filter fs keep basePath a ((List.mem_inits _ _).mp ha) habove

theorem walkErr_of_ok (fs : FS) (p : Path) (hok : (osRemoveAll p fs).1 = none) :
    fs.walkErr p = none := by
  unfold osRemoveAll FS.refusal at hok
  cases hw : fs.walkErr p with
  | none => rfl
  | some e => rw [hw] at hok; cases hok

/-- The removal of a path that can be reached and at or below which there is
nothing returns nil. -/
theorem osRemoveAll_absent (fs : FS) (p : Path) (hreach : fs.walkErr p = none)
    (habsent : ∀ n ∈ fs, ¬ p <+: n.path) : (osRemoveAll p fs).1 = none := by
  have hlook : fs.lookup p = none := by
    unfold FS.lookup
    rw [List.find?_eq_none]
    intro n hn
    have : n.path ≠ p := fun h => habsent n hn (h ▸ List.prefix_refl _)
    simpa using this
  have hstuck : fs.stuck p p = false := by
    unfold FS.stuck
    rw [List.any_eq_false]
    intro m hm
    have : p.isPrefixOf m.path = false := by
      rw [← Bool.not_eq_true, List.isPrefixOf_iff_prefix]; exact habsent m hm
    simp [this]
  simp [osRemoveAll, FS.refusal, hreach, FS.firstRemoveFails, hlook, hstuck]

/-- When each listed path can be reached and no node lies at or below it, the
directory phase changes nothing and every removal reports success. -/
theorem deleteDirectories_unchanged (sched : Nat → Nat) (numCPU : Nat) (basePath : Path)
    (fs : FS)
    (hreach : ∀ d ∈ directoriesToDelete, fs.walkErr (filepathJoin basePath d) = none)
    (habsent : ∀ d ∈ directoriesToDelete, ∀ n ∈ fs, ¬ filepathJoin basePath d <+: n.path) :
    (deleteDirectories sched numCPU basePath fs).fs = fs ∧
    (deleteDirectories sched numCPU basePath fs).err = none ∧
    (∀ a ∈ (deleteDirectories sched numCPU basePath fs).attempts, a.2 = none) ∧
    (∀ l ∈ (deleteDirectories sched numCPU basePath fs).output, l.isFailure = false) := by
  have hatt : ∀ a ∈ (deleteDirectories sched numCPU basePath fs).attempts, a.2 = none := by
    intro a ha
    obtain ⟨d, hd, rfl⟩ := (mem_deleteDirectories_attempts sched numCPU basePath fs a).mp ha
    exact osRemoveAll_absent fs _ (hreach d hd) (habsent d hd)
  refine ⟨?_, rfl, hatt, ?_⟩
  · rw [(deleteDirectories_run sched numCPU basePath fs).2]
    apply List.filter_eq_self.mpr
    intro n hn
    rw [List.all_eq_true]
    intro d hd
    exact survives_of_not_below fs _ n (habsent d hd n hn)
  · intro l hl
    have hout : (deleteDirectories sched numCPU basePath fs).output =
        (deleteDirectories sched numCPU basePath fs).attempts.map directoryLine := rfl
    rw [hout] at hl
    obtain ⟨a, ha, rfl⟩ := List.mem_map.mp hl
    exact (directoryLine_isFailure a).mpr (hatt a ha)

/-- C4 as stated fails: when the base path is a regular file, or a directory
that cannot be searched, none of the 15 listed names exists under it, and yet
`deleteDirectories` reports a failure for each of the 15 paths. -/
theorem deleteDirectories_reports_unreachable :
    (fileBaseFS.WF ∧
      (∀ name ∈ directoriesToDelete,
        fileBaseFS.pathExists (filepathJoin projectDir name) = false) ∧
      (deleteDirectories (fun _ => 0) 4 projectDir fileBaseFS).output =
        directoriesToDelete.map (fun d =>
          Line.unableToDeleteDirectory (filepathJoin projectDir d) Err.notDir) ∧
      ¬ (∀ l ∈ (deleteDirectories (fun _ => 0) 4 projectDir fileBaseFS).output,
        l.isFailure = false)) ∧
    (unsearchableFS.WF ∧
      (∀ name ∈ directoriesToDelete,
        unsearchableFS.pathExists (filepathJoin projectDir name) = false) ∧
      (deleteDirectories (fun _ => 0) 4 projectDir unsearchableFS).output =
        directoriesToDelete.map (fun d =>
          Line.unableToDeleteDirectory (filepathJoin projectDir d) Err.permission) ∧
      ¬ (∀ l ∈ (deleteDirectories (fun _ => 0) 4 projectDir unsearchableFS).output,
        l.isFailure = false)) := by
  refine ⟨⟨by decide, by decide, by decide, by decide⟩,
    ⟨by decide, by decide, by decide, by decide⟩⟩

/-- C4, amended: when the base path can be traversed (each existing component
of it, the base path itself included, is a directory that can be searched)
and none of the 15 listed names exists under it (in a well-formed state),
`deleteDirectories` leaves the state unchanged, returns nil, and every
removal reports success, so that no failure line is printed; consequently a
second run right after a fully successful first run changes nothing and
reports no failure. -/
theorem deleteDirectories_noop (sched sched2 : Nat → Nat) (numCPU : Nat) (basePath : Path)
    (fs : FS) :
    (fs.WF → (∀ a, a <+: basePath → fs.componentErr a = none) →
      (∀ name ∈ directoriesToDelete,
        fs.pathExists (filepathJoin basePath name) = false) →
      (deleteDirectories sched numCPU basePath fs).fs = fs ∧
      (deleteDirectories sched numCPU basePath fs).err = none ∧
      (∀ a ∈ (deleteDirectories sched numCPU basePath fs).attempts, a.2 = none) ∧
      (∀ l ∈ (deleteDirectories sched numCPU basePath fs).output, l.isFailure = false)) ∧
    ((∀ a ∈ (deleteDirectories sched numCPU basePath fs).attempts, a.2 = none) →
      (deleteDirectories sched2 numCPU basePath
          (deleteDirectories sched numCPU basePath fs).fs).fs =
        (deleteDirectories sched numCPU basePath fs).fs ∧
      (deleteDirectories sched2 numCPU basePath
          (deleteDirectories sched numCPU basePath fs).fs).err = none ∧
      (∀ a ∈ (deleteDirectories sched2 numCPU basePath
          (deleteDirectories sched numCPU basePath fs).fs).attempts, a.2 = none) ∧
      (∀ l ∈ (deleteDirectories sched2 numCPU basePath
          (deleteDirectories sched numCPU basePath fs).fs).output, l.isFailure = false)) := by
  constructor
  · intro hwf htrav hnone
    apply deleteDirectories_unchanged sched
    · intro d _
      exact (walkErr_join fs basePath d).mpr htrav
    · intro d hd n hn hp
      have := hwf.2 n hn (filepathJoin basePath d) ((List.mem_inits _ _).mpr hp)
      rw [hnone d hd] at this
      cases this
  · intro hok
    have hokd : ∀ d ∈ directoriesToDelete,
        (osRemoveAll (filepathJoin basePath d) fs).1 = none := by
      intro d hd
      exact hok (filepathJoin basePath d, (osRemoveAll (filepathJoin basePath d) fs).1)
        ((mem_deleteDirectories_attempts sched numCPU basePath fs _).mpr ⟨d, hd, rfl⟩)
    apply deleteDirectories_unchanged sched2
    · intro d hd
      rw [(deleteDirectories_run sched numCPU basePath fs).2,
        walkErr_join_filter fs _ basePath d]
      · exact walkErr_of_ok fs _ (hokd d hd)
      · intro n _ hn
        rw [List.all_eq_true]
        intro d2 _
        exact survives_of_not_below fs _ n (not_join_prefix_base basePath d2 n.path hn)
    · intro d hd n hn hp
      have hgone := deleteDirectories_gone sched numCPU basePath fs d hd (hokd d hd) n.path hp
      rw [pathExists_false_iff] at hgone
      exact hgone n hn rfl

/-- C4 amended, on an empty project directory, and on a second run after the
example of the specification. -/
theorem deleteDirectories_noop_witness :
    (deleteDirectories (fun _ => 0) 4 projectDir emptyFS).fs = emptyFS ∧
    (∀ l ∈ (deleteDirectories (fun _ => 0) 4 projectDir emptyFS).output,
      l.isFailure = false) ∧
    (deleteDirectories (fun t => t % 3) 4 projectDir
        (deleteDirectories (fun _ => 0) 4 projectDir specExampleFS).fs).fs =
      (deleteDirectories (fun _ => 0) 4 projectDir specExampleFS).fs ∧
    (deleteDirectories (fun _ => 0) 4 projectDir specExampleFS).fs ≠ specExampleFS :=
  have h := (deleteDirectories_noop (fun _ => 0) (fun t => t % 3) 4 projectDir emptyFS).1
    (by decide)
    (fun a ha => (by decide : ∀ a ∈ projectDir.inits, emptyFS.componentErr a = none) a
      ((List.mem_inits _ _).mpr ha))
    (by decide)
  ⟨h.1, h.2.2.2,
   ((deleteDirectories_noop (fun _ => 0) (fun t => t % 3) 4 projectDir specExampleFS).2
      (by decide)).1,
   by decide⟩

/-! ## The file purger -/

/-- The state after a file phase whose listing and removals all succeed. -/
theorem mem_deleteFiles_fs (sched : Nat → Nat)
    (numCPU : Nat) (basePath : Path) (fs : FS) (hnd : (fs.map Node.path).Nodup)
    (entries : List DirEntry) (hlist : osReadDir basePath fs = Except.ok entries)
    (hok : ∀ p ∈ collectCandidates basePath entries, (osRemove p fs).1 = none) (n : Node) :
    n ∈ (deleteFiles sched numCPU basePath fs).fs ↔ n ∈ fs ∧ isTarget basePath n = false := by
  rw [(deleteFiles_listed sched numCPU basePath fs hnd entries hlist).1, List.mem_filter]
  apply and_congr_right
  intro hn
  cases ht : isTarget basePath n
  · simp
  · have h := hok n.path ((mem_candidates basePath fs entries hlist n.path).mpr ⟨n, hn, ht, rfl⟩)
    simp [h]

/-- C2: when the listing of `basePath` succeeds and the removal of every
candidate succeeds, then after `deleteFiles basePath` a node is there exactly
when it was there before and is not an immediate non-directory entry of
`basePath` with a listed extension; and likewise a path exists exactly when
it existed before and is not the path of such an entry.  So every directory,
every file in a subdirectory and every top-level file with another extension
is untouched, and no top-level file with a listed extension remains. -/
theorem deleteFiles_removes_exactly (sched : Nat → Nat) (numCPU : Nat) (basePath : Path)
    (fs : FS) (hwf : fs.WF) (entries : List DirEntry)
    (hlist : osReadDir basePath fs = Except.ok entries)
    (hok : ∀ p ∈ collectCandidates basePath entries, (osRemove p fs).1 = none) :
    (∀ n, n ∈ (deleteFiles sched numCPU basePath fs).fs ↔
      n ∈ fs ∧ ¬ ∃ name, n.path = filepathJoin basePath name ∧ n.isDir = false ∧
        filepathExt name ∈ fileExtensionsToDelete) ∧
    (∀ q, (deleteFiles sched numCPU basePath fs).fs.pathExists q = true ↔
      fs.pathExists q = true ∧ ¬ ∃ name, q = filepathJoin basePath name ∧
        (∃ n ∈ fs, n.path = q ∧ n.isDir = false) ∧
        filepathExt name ∈ fileExtensionsToDelete) := by
  have hmem : ∀ n, n ∈ (deleteFiles sched numCPU basePath fs).fs ↔
      n ∈ fs ∧ ¬ ∃ name, n.path = filepathJoin basePath name ∧ n.isDir = false ∧
        filepathExt name ∈ fileExtensionsToDelete := by
    intro n
    rw [mem_deleteFiles_fs sched numCPU basePath fs hwf.1 entries hlist hok n,
      ← isTarget_iff, Bool.not_eq_true]
  refine ⟨hmem, ?_⟩
  intro q
  rw [pathExists_iff, pathExists_iff]
  constructor
  · rintro ⟨n, hn, rfl⟩
    obtain ⟨hnfs, hnt⟩ := (hmem n).mp hn
    refine ⟨⟨n, hnfs, rfl⟩, ?_⟩
    rintro ⟨name, hq, ⟨m, hm, hmq, hmd⟩, hx⟩
    have : m = n := node_unique fs hwf.1 m n hm hnfs hmq
    subst this
    exact hnt ⟨name, hq, hmd, hx⟩
  · rintro ⟨⟨n, hn, rfl⟩, hnt⟩
    refine ⟨n, (hmem n).mpr ⟨hn, ?_⟩, rfl⟩
    rintro ⟨name, hq, hd, hx⟩
    exact hnt ⟨name, hq, ⟨n, hn, rfl, hd⟩, hx⟩

/-- C2 on a project with a directory named `docs.txt` and a file
`Assets/readme.txt`: `notes.txt` goes, the other two stay. -/
theorem deleteFiles_removes_exactly_witness :
    plainNode ["proj", "notes.txt"] false ∈ mixedFS ∧
    plainNode ["proj", "notes.txt"] false ∉
      (deleteFiles (fun t => t % 3) 4 projectDir mixedFS).fs ∧
    plainNode ["proj", "docs.txt"] true ∈
      (deleteFiles (fun t => t % 3) 4 projectDir mixedFS).fs ∧
    (deleteFiles (fun t => t % 3) 4 projectDir mixedFS).fs.pathExists
      ["proj", "Assets", "readme.txt"] = true :=
  have h := deleteFiles_removes_exactly (fun t => t % 3) 4 projectDir mixedFS
    (by decide) _ rfl (by decide)
  ⟨by decide,
   fun hin => ((h.1 _).mp hin).2 ⟨"notes.txt", rfl, rfl, by decide⟩,
   (h.1 _).mpr ⟨by decide, fun ⟨_, _, hd, _⟩ => by cases hd⟩,
   (h.2 _).mpr ⟨by decide, fun ⟨_, hq, _, _⟩ => by
     simp [filepathJoin, projectDir] at hq⟩⟩

theorem collectCandidates_eq_nil (basePath : Path) (entries : List DirEntry)
    (hnone : ∀ e ∈ entries, e.isDir = true ∨ filepathExt e.name ∉ fileExtensionsToDelete) :
    collectCandidates basePath entries = [] := by
  induction entries with
  | nil => rfl
  | cons e rest ih =>
    have hrest := ih (fun x hx => hnone x (List.mem_cons_of_mem _ hx))
    rcases hnone e (List.mem_cons_self _ _) with h | h
    · simp [collectCandidates, h, hrest]
    · simp [collectCandidates, h, hrest]

/-- C7: when the listing of `basePath` succeeds and holds no candidate (it is
empty, or holds only directories and files with other extensions),
`deleteFiles` returns nil with zero workers started, zero jobs enqueued, no
removal attempted and nothing printed, and the state is unchanged. -/
theorem deleteFiles_no_candidates (sched : Nat → Nat) (numCPU : Nat)
    (basePath : Path) (fs : FS) (entries : List DirEntry)
    (hlist : osReadDir basePath fs = Except.ok entries)
    (hnone : ∀ e ∈ entries, e.isDir = true ∨ filepathExt e.name ∉ fileExtensionsToDelete) :
    deleteFiles sched numCPU basePath fs =
      { fs := fs, err := none, workers := 0, enqueued := [], attempts := [], output := [] } := by
  unfold deleteFiles
  rw [hlist]
  simp [collectCandidates_eq_nil basePath entries hnone]

/-- C7 on an empty project directory and on one that holds only a directory
and a file with another extension. -/
theorem deleteFiles_no_candidates_witness :
    osReadDir projectDir emptyFS = Except.ok [] ∧
    deleteFiles (fun _ => 0) 4 projectDir emptyFS =
      { fs := emptyFS, err := none, workers := 0, enqueued := [], attempts := [], output := [] } ∧
    deleteFiles (fun _ => 0) 4 projectDir
        (emptyFS ++ [plainNode ["proj", "obj"] true, plainNode ["proj", "keep.json"] false]) =
      { fs := emptyFS ++ [plainNode ["proj", "obj"] true, plainNode ["proj", "keep.json"] false],
        err := none, workers := 0, enqueued := [], attempts := [], output := [] } :=
  ⟨rfl,
   deleteFiles_no_candidates (fun _ => 0) 4 projectDir emptyFS [] rfl (by decide),
   deleteFiles_no_candidates (fun _ => 0) 4 projectDir _
     [⟨"obj", true⟩, ⟨"keep.json", false⟩] rfl (by decide)⟩

/-- C8: failures of single removals never become a return value.
`deleteDirectories` returns nil on every input; `deleteFiles` returns an error
exactly when the listing of `basePath` fails, and then it returns that very
error, starts no worker, attempts no removal, prints nothing and leaves the
state as it was; in `main` the state is then the one the directory phase
left. -/
theorem failures_not_returned (schedD schedF : Nat → Nat) (numCPU : Nat) (basePath : Path)
    (fs : FS) :
    (deleteDirectories schedD numCPU basePath fs).err = none ∧
    ((deleteFiles schedF numCPU basePath fs).err ≠ none ↔
      ∃ e, osReadDir basePath fs = Except.error e) ∧
    (∀ e, osReadDir basePath fs = Except.error e →
      deleteFiles schedF numCPU basePath fs =
        { fs := fs, err := some e, workers := 0, enqueued := [], attempts := [], output := [] }) ∧
    (∀ e, osReadDir basePath (deleteDirectories schedD numCPU basePath fs).fs = Except.error e →
      (main schedD schedF numCPU (Except.ok basePath) fs).1 =
        (deleteDirectories schedD numCPU basePath fs).fs) := by
  refine ⟨rfl, ?_, ?_, ?_⟩
  · unfold deleteFiles
    cases h : osReadDir basePath fs with
    | error e => simp
    | ok entries =>
      simp only
      split <;> simp
  · intro e h
    unfold deleteFiles
    rw [h]
  · intro e h
    unfold main
    simp only
    unfold deleteFiles
    rw [h]

/-- C8 on a project in which each of the 15 removals fails, and on a project
directory that cannot be listed. -/
theorem failures_not_returned_witness :
    (deleteDirectories (fun _ => 0) 4 projectDir allLockedFS).attempts.map Prod.snd =
      List.replicate 15 (some Err.permission) ∧
    (deleteDirectories (fun _ => 0) 4 projectDir allLockedFS).err = none ∧
    deleteFiles (fun _ => 0) 4 projectDir unlistableFS =
      { fs := unlistableFS, err := some Err.permission, workers := 0, enqueued := [],
        attempts := [], output := [] } ∧
    (main (fun _ => 0) (fun _ => 0) 4 (Except.ok projectDir) unlistableFS).1 =
      (deleteDirectories (fun _ => 0) 4 projectDir unlistableFS).fs :=
  ⟨by decide,
   (failures_not_returned (fun _ => 0) (fun _ => 0) 4 projectDir allLockedFS).1,
   (failures_not_returned (fun _ => 0) (fun _ => 0) 4 projectDir unlistableFS).2.2.1
     Err.permission rfl,
   (failures_not_returned (fun _ => 0) (fun _ => 0) 4 projectDir unlistableFS).2.2.2
     Err.permission rfl⟩

/-- With a listing that succeeds and holds a candidate, `deleteFiles` starts
`fileWorkerCount` workers. -/
theorem deleteFiles_workers (sched : Nat → Nat) (numCPU : Nat)
    (basePath : Path) (fs : FS) (entries : List DirEntry)
    (hlist : osReadDir basePath fs = Except.ok entries)
    (hcand : collectCandidates basePath entries ≠ []) :
    (deleteFiles sched numCPU basePath fs).workers =
      fileWorkerCount numCPU (collectCandidates basePath entries).length := by
  unfold deleteFiles
  rw [hlist]
  have : (collectCandidates basePath entries).length ≠ 0 :=
    fun h => hcand (List.length_eq_zero.mp h)
  simp [this]

/-- C6 as stated fails: with 4 processors and the single candidate
`notes.txt`, `deleteFiles` starts one worker, not `max 2 (min 4 1) = 2`. -/
theorem deleteFiles_workers_single :
    osReadDir projectDir singleFS = Except.ok [⟨"notes.txt", false⟩] ∧
    (collectCandidates projectDir [⟨"notes.txt", false⟩]).length = 1 ∧
    (deleteFiles (fun _ => 0) 4 projectDir singleFS).workers = 1 ∧
    (deleteFiles (fun _ => 0) 4 projectDir singleFS).workers ≠ max 2 (min 4 1) ∧
    ¬ (2 ≤ (deleteFiles (fun _ => 0) 4 projectDir singleFS).workers) := by
  refine ⟨rfl, by decide, by decide, by decide, by decide⟩

/-- C6, amended: for every parallelism `numCPU` and every listing with
`c ≥ 1` candidates, `deleteFiles` starts `min (max 2 numCPU) c` workers: the
floor of 2 is applied to the parallelism before the cap by the candidate
count.  So the pool has at least one worker and at most `c`, and at least 2
exactly when there are at least 2 candidates. -/
theorem deleteFiles_workers_amended (sched : Nat → Nat) (numCPU : Nat)
    (basePath : Path) (fs : FS) (entries : List DirEntry)
    (hlist : osReadDir basePath fs = Except.ok entries)
    (hcand : 1 ≤ (collectCandidates basePath entries).length) :
    (deleteFiles sched numCPU basePath fs).workers =
      min (max 2 numCPU) (collectCandidates basePath entries).length ∧
    1 ≤ (deleteFiles sched numCPU basePath fs).workers ∧
    (deleteFiles sched numCPU basePath fs).workers ≤
      (collectCandidates basePath entries).length ∧
    (2 ≤ (deleteFiles sched numCPU basePath fs).workers ↔
      2 ≤ (collectCandidates basePath entries).length) := by
  have hne : collectCandidates basePath entries ≠ [] := by
    intro h; rw [h] at hcand; cases hcand
  rw [deleteFiles_workers sched numCPU basePath fs entries hlist hne]
  unfold fileWorkerCount
  simp only
  split <;> split <;> omega

/-- C6 amended, on the example of the specification (two candidates) and on a
single candidate. -/
theorem deleteFiles_workers_amended_witness :
    (deleteFiles (fun _ => 0) 8 projectDir specExampleFS).workers = min (max 2 8) 2 ∧
    (deleteFiles (fun _ => 0) 8 projectDir singleFS).workers = min (max 2 8) 1 :=
  ⟨(deleteFiles_workers_amended (fun _ => 0) 8 projectDir specExampleFS
      (specExampleFS.filterMap (entryOf projectDir)) rfl (by decide)).1,
   (deleteFiles_workers_amended (fun _ => 0) 8 projectDir singleFS
      (singleFS.filterMap (entryOf projectDir)) rfl (by decide)).1⟩

theorem mem_collectCandidates (basePath : Path) (entries : List DirEntry) (p : Path) :
    p ∈ collectCandidates basePath entries ↔
      ∃ e ∈ entries, e.isDir = false ∧ filepathExt e.name ∈ fileExtensionsToDelete ∧
        p = filepathJoin basePath e.name := by
  induction entries with
  | nil => simp [collectCandidates]
  | cons e rest ih =>
    unfold collectCandidates
    cases hd : e.isDir
    · by_cases hx : filepathExt e.name ∈ fileExtensionsToDelete
      · simp [hx, hd, ih]
      · simp [hx, hd, ih]
    · simp [hd, ih]

/-- C9: extension matching in `deleteFiles` is exact and case-sensitive.  An
entry of the listing is a candidate exactly when it is not a directory and
the suffix of its name from its last dot on (empty without a dot) is one of
`.csproj`, `.sln`, `.txt`, `.user`, `.vsconfig`, character for character.
Of the files `notes.TXT`, `notes.Txt`, `notes.txt.bak`, `txt`, `notes.txt`,
`a.b.sln`, `.txt` the candidates are the last three. -/
theorem extension_matching_exact (basePath : Path) :
    (∀ entries p, p ∈ collectCandidates basePath entries ↔
      ∃ e ∈ entries, e.isDir = false ∧ lastDotSuffix e.name ∈ fileExtensionsToDelete ∧
        p = filepathJoin basePath e.name) ∧
    (∀ name, filepathExt name ∈ fileExtensionsToDelete ↔
      lastDotSuffix name = ".csproj" ∨ lastDotSuffix name = ".sln" ∨
      lastDotSuffix name = ".txt" ∨ lastDotSuffix name = ".user" ∨
      lastDotSuffix name = ".vsconfig") ∧
    collectCandidates basePath
        [⟨"notes.TXT", false⟩, ⟨"notes.Txt", false⟩, ⟨"notes.txt.bak", false⟩,
         ⟨"txt", false⟩, ⟨"notes.txt", false⟩, ⟨"a.b.sln", false⟩, ⟨".txt", false⟩] =
      [filepathJoin basePath "notes.txt", filepathJoin basePath "a.b.sln",
       filepathJoin basePath ".txt"] := by
  refine ⟨?_, ?_, ?_⟩
  · intro entries p
    rw [mem_collectCandidates]
    simp only [filepathExt_mem_iff]
  · intro name
    rw [filepathExt_mem_iff]
    simp [fileExtensionsToDelete]
  · have h1 : fileExtensionsToDelete.contains (filepathExt "notes.TXT") = false := by decide
    have h2 : fileExtensionsToDelete.contains (filepathExt "notes.Txt") = false := by decide
    have h3 : fileExtensionsToDelete.contains (filepathExt "notes.txt.bak") = false := by decide
    have h4 : fileExtensionsToDelete.contains (filepathExt "txt") = false := by decide
    have h5 : fileExtensionsToDelete.contains (filepathExt "notes.txt") = true := by decide
    have h6 : fileExtensionsToDelete.contains (filepathExt "a.b.sln") = true := by decide
    have h7 : fileExtensionsToDelete.contains (filepathExt ".txt") = true := by decide
    simp only [collectCandidates, h1, h2, h3, h4, h5, h6, h7, Bool.false_eq_true, if_false,
      if_true]

/-! ## Independence of the jobs -/

/-- Carrying out the directory jobs one after the other: the state left and the
outcome of each path do not depend on the order. -/
theorem runJobs_directoryJob_perm (basePath : Path) (fs : FS) (o1 o2 : List String)
    (h : o1.Perm o2) (hnd : o2.Nodup) :
    (runJobs (directoryJob basePath) o1 fs).2 = (runJobs (directoryJob basePath) o2 fs).2 ∧
    (runJobs (directoryJob basePath) o1 fs).1.Perm (runJobs (directoryJob basePath) o2 fs).1 := by
  rw [runJobs_directoryJob basePath o1 (h.nodup_iff.mpr hnd),
    runJobs_directoryJob basePath o2 hnd]
  refine ⟨?_, h.map _⟩
  apply List.filter_congr
  intro n _
  rw [Bool.eq_iff_iff, List.all_eq_true, List.all_eq_true]
  simp only [h.mem_iff]

/-- Carrying out the file jobs one after the other, for distinct entries of
`basePath`: the state left and the outcome of each path do not depend on the
order. -/
theorem runJobs_fileJob_perm (basePath : Path) (fs : FS) (o1 o2 : List Path)
    (h : o1.Perm o2) (hps : o2.Nodup)
    (hsib : ∀ p ∈ o2, ∃ name, p = filepathJoin basePath name) :
    (runJobs fileJob o1 fs).2 = (runJobs fileJob o2 fs).2 ∧
    (runJobs fileJob o1 fs).1.Perm (runJobs fileJob o2 fs).1 := by
  rw [runJobs_fileJob basePath o1 fs (h.nodup_iff.mpr hps)
      (fun p hp => hsib p (h.mem_iff.mp hp)),
    runJobs_fileJob basePath o2 fs hps hsib]
  refine ⟨?_, h.map _⟩
  apply List.filter_congr
  intro m _
  have : o1.contains m.path = o2.contains m.path := by
    rw [Bool.eq_iff_iff]
    simp [h.mem_iff]
  rw [this]

/-- C10: the jobs of a batch are independent paths, and the order in which
they are carried out does not matter.  The 15 listed names are pairwise
distinct single components, no listed path is a path prefix of another, the
candidates of `deleteFiles` are pairwise distinct, and carrying out a batch
one job after the other in any two orders ends in the same filesystem state
with the same outcome for every path (the attempts of one order are a
rearrangement of those of the other); so do any two schedulings of the
workers of `deleteDirectories` and of `deleteFiles`. -/
theorem job_order_irrelevant (schedD schedD2 schedF schedF2 : Nat → Nat)
    (numCPU : Nat) (basePath : Path) (fs : FS) (hwf : fs.WF) :
    (directoriesToDelete.Nodup ∧
      (∀ a ∈ directoriesToDelete, ∀ c ∈ a.data, isPathSeparator c = false) ∧
      (∀ a ∈ directoriesToDelete, ∀ b ∈ directoriesToDelete, a ≠ b →
        ¬ filepathJoin basePath a <+: filepathJoin basePath b)) ∧
    (∀ entries, osReadDir basePath fs = Except.ok entries →
      (collectCandidates basePath entries).Nodup) ∧
    (∀ o1 o2 : List String, o1.Perm directoriesToDelete → o2.Perm directoriesToDelete →
      (runJobs (directoryJob basePath) o1 fs).2 = (runJobs (directoryJob basePath) o2 fs).2 ∧
      (runJobs (directoryJob basePath) o1 fs).1.Perm
        (runJobs (directoryJob basePath) o2 fs).1) ∧
    (∀ entries, osReadDir basePath fs = Except.ok entries →
      ∀ o1 o2 : List Path, o1.Perm (collectCandidates basePath entries) →
        o2.Perm (collectCandidates basePath entries) →
      (runJobs fileJob o1 fs).2 = (runJobs fileJob o2 fs).2 ∧
      (runJobs fileJob o1 fs).1.Perm (runJobs fileJob o2 fs).1) ∧
    ((deleteDirectories schedD numCPU basePath fs).fs =
        (deleteDirectories schedD2 numCPU basePath fs).fs ∧
      (deleteDirectories schedD numCPU basePath fs).attempts.Perm
        (deleteDirectories schedD2 numCPU basePath fs).attempts) ∧
    ((deleteFiles schedF numCPU basePath fs).fs =
        (deleteFiles schedF2 numCPU basePath fs).fs ∧
      (deleteFiles schedF numCPU basePath fs).attempts.Perm
        (deleteFiles schedF2 numCPU basePath fs).attempts) := by
  refine ⟨⟨directoriesToDelete_nodup, by decide, ?_⟩, ?_, ?_, ?_, ⟨?_, ?_⟩, ?_⟩
  · intro a _ b _ hab hp
    have h1 : [a] <+: [b] := (List.prefix_append_right_inj basePath).mp hp
    have h2 : [a] = [b] := h1.eq_of_length rfl
    exact hab (by simpa using h2)
  · intro entries hlist
    exact candidates_nodup basePath fs hwf.1 entries hlist
  · intro o1 o2 h1 h2
    exact runJobs_directoryJob_perm basePath fs o1 o2 (h1.trans h2.symm)
      (h2.nodup_iff.mpr directoriesToDelete_nodup)
  · intro entries hlist o1 o2 h1 h2
    apply runJobs_fileJob_perm basePath fs o1 o2 (h1.trans h2.symm)
      (h2.nodup_iff.mpr (candidates_nodup basePath fs hwf.1 entries hlist))
    intro p hp
    obtain ⟨n, _, ht, hnp⟩ := (mem_candidates basePath fs entries hlist p).mp (h2.mem_iff.mp hp)
    obtain ⟨name, hname, _, _⟩ := (isTarget_iff basePath n).mp ht
    exact ⟨name, hnp ▸ hname⟩
  · rw [(deleteDirectories_run schedD numCPU basePath fs).2,
      (deleteDirectories_run schedD2 numCPU basePath fs).2]
  · exact (deleteDirectories_run schedD numCPU basePath fs).1.trans
      (deleteDirectories_run schedD2 numCPU basePath fs).1.symm
  · cases hlist : osReadDir basePath fs with
    | error e =>
      have h1 : deleteFiles schedF numCPU basePath fs =
          deleteFiles schedF2 numCPU basePath fs := by
        unfold deleteFiles; rw [hlist]
      rw [h1]
      exact ⟨rfl, List.Perm.refl _⟩
    | ok entries =>
      obtain ⟨hfs1, hat1, _⟩ := deleteFiles_listed schedF numCPU basePath fs hwf.1 entries hlist
      obtain ⟨hfs2, hat2, _⟩ := deleteFiles_listed schedF2 numCPU basePath fs hwf.1 entries hlist
      rw [hfs1, hfs2]
      exact ⟨rfl, hat1.trans hat2.symm⟩

/-- C10 on a project with two locked paths.  Under the scheduler `fun _ => 0`
each job is carried out as soon as it is received; under the other one two
workers receive `notes.txt` and `project.sln` and the second is carried out
first.  The attempts come in different orders, the states are the same, and
the removal of `notes.txt` fails in both. -/
theorem job_order_irrelevant_witness :
    ((deleteDirectories (fun _ => 0) 4 projectDir lockedFS).fs =
        (deleteDirectories (fun t => t % 3) 4 projectDir lockedFS).fs ∧
      (deleteDirectories (fun _ => 0) 4 projectDir lockedFS).attempts.Perm
        (deleteDirectories (fun t => t % 3) 4 projectDir lockedFS).attempts) ∧
    ((runJobs (directoryJob projectDir) directoriesToDelete lockedFS).2 =
        (runJobs (directoryJob projectDir) directoriesToDelete.reverse lockedFS).2) ∧
    ((deleteFiles (fun _ => 0) 4 projectDir lockedFS).fs =
        (deleteFiles (fun t => if 2 ≤ t then 0 else 2) 4 projectDir lockedFS).fs) ∧
    (deleteFiles (fun _ => 0) 4 projectDir lockedFS).attempts =
      [(["proj", "notes.txt"], some Err.permission), (["proj", "project.sln"], none)] ∧
    (deleteFiles (fun t => if 2 ≤ t then 0 else 2) 4 projectDir lockedFS).attempts =
      [(["proj", "project.sln"], none), (["proj", "notes.txt"], some Err.permission)] :=
  have h := job_order_irrelevant (fun _ => 0) (fun t => t % 3) (fun _ => 0)
    (fun t => if 2 ≤ t then 0 else 2) 4 projectDir lockedFS (by decide)
  ⟨h.2.2.2.2.1,
   (h.2.2.1 directoriesToDelete directoriesToDelete.reverse (List.Perm.refl _)
     (List.reverse_perm _)).1,
   h.2.2.2.2.2.1, by decide, by decide⟩

/-! ## Both phases -/

theorem deleteFiles_output (sched : Nat → Nat) (numCPU : Nat) (basePath : Path)
    (fs : FS) :
    (deleteFiles sched numCPU basePath fs).output =
      (deleteFiles sched numCPU basePath fs).attempts.map fileLine := by
  unfold deleteFiles
  split
  · rfl
  · simp only
    split <;> rfl

/-- The directory phase leaves the base directory itself in place, so a
listing that succeeds before it succeeds after it. -/
theorem osReadDir_after_directories (sched : Nat → Nat) (numCPU : Nat) (basePath : Path) (fs : FS)
    (entries : List DirEntry)
    (hlist : osReadDir basePath fs = Except.ok entries) :
    osReadDir basePath (deleteDirectories sched numCPU basePath fs).fs =
      Except.ok ((deleteDirectories sched numCPU basePath fs).fs.filterMap (entryOf basePath)) := by
  have habove : ∀ n ∈ fs, n.path <+: basePath →
      directoriesToDelete.all (fun d => fs.survives (filepathJoin basePath d) n) = true := by
    intro n _ hn
    rw [List.all_eq_true]
    intro d _
    exact survives_of_not_below fs _ n (not_join_prefix_base basePath d n.path hn)
  have hw : FS.walkErr (deleteDirectories sched numCPU basePath fs).fs basePath =
      fs.walkErr basePath := by
    rw [(deleteDirectories_run sched numCPU basePath fs).2]
    exact walkErr_filter fs _ basePath habove
  have hl : FS.lookup (deleteDirectories sched numCPU basePath fs).fs basePath =
      fs.lookup basePath := by
    rw [(deleteDirectories_run sched numCPU basePath fs).2]
    exact lookup_filter fs _ basePath basePath (List.prefix_refl _) habove
  revert hlist
  unfold osReadDir
  rw [hw, hl]
  cases fs.walkErr basePath with
  | some e => intro h; cases h
  | none =>
    cases fs.lookup basePath with
    | none => intro h; cases h
    | some d =>
      simp only
      split
      · intro h; cases h
      · split
        · intro h; cases h
        · intro _; rfl

theorem main_fs (schedD schedF : Nat → Nat) (numCPU : Nat) (basePath : Path) (fs : FS) :
    (main schedD schedF numCPU (Except.ok basePath) fs).1 =
      (deleteFiles schedF numCPU basePath (deleteDirectories schedD numCPU basePath fs).fs).fs :=
  rfl

theorem main_output (schedD schedF : Nat → Nat) (numCPU : Nat) (basePath : Path) (fs : FS) (l : Line)
    (hl : l ∈ (deleteDirectories schedD numCPU basePath fs).output ∨
      l ∈ (deleteFiles schedF numCPU basePath
        (deleteDirectories schedD numCPU basePath fs).fs).output) :
    l ∈ (main schedD schedF numCPU (Except.ok basePath) fs).2 := by
  unfold main
  simp only
  have hd : (deleteDirectories schedD numCPU basePath fs).err = none := rfl
  rw [hd]
  simp only [List.mem_append]
  rcases hl with h | h
  · exact Or.inl (Or.inl h)
  · refine Or.inl (Or.inr ?_)
    split
    · exact List.mem_append_left _ h
    · exact h

/-- C5 as stated fails: in a project directory that cannot be listed, the
directory phase and the file phase run without a single failed removal, and
the top-level file `notes.txt` is still there. -/
theorem main_keeps_files_when_unlistable :
    unlistableFS.WF ∧
    (∀ l ∈ (main (fun _ => 0) (fun _ => 0) 4 (Except.ok projectDir) unlistableFS).2, l.isFailure = false) ∧
    plainNode ["proj", "notes.txt"] false ∈ (main (fun _ => 0) (fun _ => 0) 4 (Except.ok projectDir) unlistableFS).1 ∧
    filepathExt "notes.txt" ∈ fileExtensionsToDelete ∧
    ¬ TopLevelOutcome projectDir unlistableFS
        (main (fun _ => 0) (fun _ => 0) 4 (Except.ok projectDir) unlistableFS).1 := by
  refine ⟨by decide, by decide, by decide, by decide, ?_⟩
  intro h
  have h1 := (h (plainNode ["proj", "notes.txt"] false) (by decide) "notes.txt" rfl).mp
    (by decide)
  rcases h1.2 with h2 | h2
  · cases h2
  · exact h2 (by decide)

/-- C5, amended: in every well-formed state in which the listing of the base
path succeeds, after the directory phase and the file phase with no failed
removal, a top-level entry of the base path is still there exactly when its
name is not one of the 15 listed names and it is a directory or a file whose
extension is not listed; a listed name goes, directory or file. -/
theorem main_top_level_outcome (schedD schedF : Nat → Nat) (numCPU : Nat) (basePath : Path)
    (fs : FS)
    (hwf : fs.WF) (entries : List DirEntry)
    (hlist : osReadDir basePath fs = Except.ok entries)
    (hok : ∀ l ∈ (main schedD schedF numCPU (Except.ok basePath) fs).2, l.isFailure = false) :
    TopLevelOutcome basePath fs (main schedD schedF numCPU (Except.ok basePath) fs).1 := by
  have hndD : ((deleteDirectories schedD numCPU basePath fs).fs.map Node.path).Nodup := by
    rw [(deleteDirectories_run schedD numCPU basePath fs).2]
    exact nodup_filter fs hwf.1 _
  have hlistD := osReadDir_after_directories schedD numCPU basePath fs entries hlist
  -- every removal of the directory phase succeeded
  have hokD : ∀ d ∈ directoriesToDelete,
      (osRemoveAll (filepathJoin basePath d) fs).1 = none := by
    intro d hd
    have hmem : (filepathJoin basePath d, (osRemoveAll (filepathJoin basePath d) fs).1) ∈
        (deleteDirectories schedD numCPU basePath fs).attempts :=
      (mem_deleteDirectories_attempts schedD numCPU basePath fs _).mpr ⟨d, hd, rfl⟩
    have hline := hok _ (main_output schedD schedF numCPU basePath fs _
      (Or.inl (List.mem_map_of_mem directoryLine hmem)))
    exact (directoryLine_isFailure _).mp hline
  -- every removal of the file phase succeeded
  have hokF : ∀ p ∈ collectCandidates basePath
        ((deleteDirectories schedD numCPU basePath fs).fs.filterMap (entryOf basePath)),
      (osRemove p (deleteDirectories schedD numCPU basePath fs).fs).1 = none := by
    intro p hp
    have hmem : (p, (osRemove p (deleteDirectories schedD numCPU basePath fs).fs).1) ∈
        (deleteFiles schedF numCPU basePath
          (deleteDirectories schedD numCPU basePath fs).fs).attempts := by
      rw [(deleteFiles_listed schedF numCPU basePath _ hndD _ hlistD).2.1.mem_iff]
      exact List.mem_map.mpr ⟨p, hp, rfl⟩
    have hline := hok _ (main_output schedD schedF numCPU basePath fs _ (Or.inr (by
      rw [deleteFiles_output]
      exact List.mem_map_of_mem fileLine hmem)))
    exact (fileLine_isFailure _).mp hline
  intro n hn name hname
  rw [main_fs, mem_deleteFiles_fs schedF numCPU basePath _ hndD _ hlistD hokF n,
    mem_deleteDirectories_fs schedD]
  have htarget : isTarget basePath n = false ↔
      (n.isDir = true ∨ filepathExt name ∉ fileExtensionsToDelete) := by
    rw [← Bool.not_eq_true, isTarget_iff]
    constructor
    · intro h
      by_cases hd : n.isDir = true
      · exact Or.inl hd
      · exact Or.inr (fun hx => h ⟨name, hname, by simpa using hd, hx⟩)
    · rintro h ⟨name', hname', hd, hx⟩
      have : name' = name := filepathJoin_injective basePath (hname'.symm.trans hname)
      subst this
      rcases h with h | h
      · rw [hd] at h; cases h
      · exact h hx
  rw [htarget]
  apply and_congr_left
  intro _
  constructor
  · rintro ⟨_, h⟩ hin
    have hs := h name hin
    rw [survives_false_of_ok fs _ (hokD name hin) n (by rw [hname])] at hs
    cases hs
  · intro hnot
    refine ⟨hn, ?_⟩
    intro d hd
    apply survives_of_not_below
    intro hp
    rw [hname, join_prefix_join] at hp
    exact hnot (hp ▸ hd)

/-- C5 amended, on the example of the specification: of `obj/`, `Library/`,
`notes.txt`, `project.sln`, `keep.json` only `keep.json` remains. -/
theorem main_top_level_outcome_witness :
    TopLevelOutcome projectDir specExampleFS
      (main (fun _ => 0) (fun t => t % 3) 4 (Except.ok projectDir) specExampleFS).1 ∧
    (main (fun _ => 0) (fun t => t % 3) 4 (Except.ok projectDir) specExampleFS).1 =
      [plainNode [] true, plainNode ["proj"] true, plainNode ["proj", "keep.json"] false] :=
  ⟨main_top_level_outcome (fun _ => 0) (fun t => t % 3) 4 projectDir specExampleFS (by decide)
      (specExampleFS.filterMap (entryOf projectDir)) rfl (by decide),
   by decide⟩

end UnityClean
